import Mathlib

/-!
Verification of the svd2rust code-generation engine (src/lib.rs) against its
natural-language specification.

The Rust source is shallowly embedded: the parsed SVD tree (peripherals,
registers, fields, enumerated values) becomes Lean structures, and each
generator function (`expand`, `access`, `gen_peripheral`'s layout loop,
`gen_register`, `gen_register_r`, `gen_register_w`) becomes a Lean function
producing an abstract description of the emitted items.  Panics (`expect`,
`panic!` in the Rust sense) are modelled with `Except String`.  Machine
integers are modelled as `Nat` with explicit truncation `% 2^w` where the
Rust code truncates.
-/

namespace Svd2Rust

/-! ## String helpers

Rust string primitives (`str::contains`, `str::replace`, `str::split`,
`str::split_whitespace`) are modelled by explicit recursions on the
character list so that every definition evaluates inside the kernel. -/

/-- Substring search over the tail positions of a character list (models
Rust `str::contains` with a string pattern). -/
def containsSubstrGo (pat : List Char) : List Char → Bool
  | [] => pat.isEmpty
  | c :: cs => pat.isPrefixOf (c :: cs) || containsSubstrGo pat cs

/-- Models Rust `str::contains` with a string pattern. -/
def containsSubstr (s pat : String) : Bool :=
  containsSubstrGo pat.data s.data

/-- Left-to-right replacement of every non-overlapping occurrence of `pat`
by `repl` (models Rust `str::replace`; the patterns the generator uses are
never empty).  The fuel argument is instantiated with the string length and
only bounds the recursion. -/
def replaceGo (pat repl : List Char) : Nat → List Char → List Char
  | 0, s => s
  | _ + 1, [] => []
  | fuel + 1, c :: cs =>
    if pat.isPrefixOf (c :: cs) then repl ++ replaceGo pat repl fuel ((c :: cs).drop pat.length)
    else c :: replaceGo pat repl fuel cs

/-- Models Rust `str::replace`. -/
def stringReplace (s pat repl : String) : String :=
  String.mk (replaceGo pat.data repl.data s.data.length s.data)

/-- Splitting on the dot character (models the `base.split('.')` of the
derivation-reference resolution). -/
def splitOnDot : List Char → List (List Char)
  | [] => [[]]
  | c :: cs =>
    if c = '.' then [] :: splitOnDot cs
    else
      match splitOnDot cs with
      | [] => [[c]]
      | w :: ws => (c :: w) :: ws

/-- Whitespace-separated words of a character list (models Rust
`str::split_whitespace`). -/
def wordsGo : List Char → List Char → List (List Char)
  | [], acc => if acc.isEmpty then [] else [acc.reverse]
  | c :: cs, acc =>
    if c.isWhitespace then
      if acc.isEmpty then wordsGo cs [] else acc.reverse :: wordsGo cs []
    else wordsGo cs (c :: acc)

/-- Mirrors `respace` (src/lib.rs line 1233): split on whitespace and re-join
with single spaces. -/
def respace (s : String) : String :=
  String.intercalate " " ((wordsGo s.data []).map String.mk)

/-- Modelled from the spec: ASCII lower-casing, standing in for Rust
`str::to_lowercase` which the source uses only to compare field names against
the literal "reserved" (no character outside ASCII lower-cases to an ASCII
letter occurring in "reserved", so the ASCII model is exact there). -/
def lowerString (s : String) : String :=
  String.mk (s.data.map Char.toLower)

/-- Modelled from the spec: word splitting used by the casing normalization of
the external `inflections` crate (the Name/Type Sanitizer's casing
collaborator).  Words are maximal alphanumeric runs, additionally split at a
lower-to-upper case boundary. -/
def splitWordsGo : List Char → List Char → List (List Char)
  | [], acc => if acc.isEmpty then [] else [acc.reverse]
  | c :: cs, acc =>
    if !c.isAlphanum then
      if acc.isEmpty then splitWordsGo cs [] else acc.reverse :: splitWordsGo cs []
    else
      match acc with
      | p :: ps =>
        if p.isLower && c.isUpper then
          (p :: ps).reverse :: splitWordsGo cs [c]
        else
          splitWordsGo cs (c :: (p :: ps))
      | [] => splitWordsGo cs [c]

/-- Modelled from the spec: word splitting entry point for casing conversion. -/
def splitWords (s : String) : List (List Char) :=
  splitWordsGo s.data []

/-- Modelled from the spec: snake-case conversion (external `inflections`
crate): words lower-cased and joined with underscores. -/
def to_snake_case (s : String) : String :=
  String.intercalate "_" ((splitWords s).map (fun w => String.mk (w.map Char.toLower)))

/-- Modelled from the spec: capitalize one word (first char upper, rest
lower). -/
def capitalizeWord : List Char → List Char
  | [] => []
  | c :: cs => Char.toUpper c :: cs.map Char.toLower

/-- Modelled from the spec: pascal-case conversion (external `inflections`
crate): words capitalized and concatenated. -/
def to_pascal_case (s : String) : String :=
  String.mk (((splitWords s).map capitalizeWord).flatten)

/-- Mirrors `ToSanitizedSnakeCase for str` (src/lib.rs lines 270-287):
digit-leading names get an underscore prepended to the snake-cased name;
the reserved words fn/in/match/mod get an underscore appended verbatim;
otherwise plain snake-casing. -/
def to_sanitized_snake_case (s : String) : String :=
  match s.data.head? with
  | some c =>
    if c.isDigit then "_" ++ to_snake_case s
    else if s = "fn" then "fn_"
    else if s = "in" then "in_"
    else if s = "match" then "match_"
    else if s = "mod" then "mod_"
    else to_snake_case s
  | none => to_snake_case s

/-- Mirrors `ToSanitizedPascalCase for str` (src/lib.rs lines 289-298). -/
def to_sanitized_pascal_case (s : String) : String :=
  match s.data.head? with
  | some c =>
    if c.isDigit then "_" ++ to_pascal_case s else to_pascal_case s
  | none => to_pascal_case s

/-! ## Data model (the svd-parser input contract, spec section 6) -/

/-- Hardware access permission (svd crate `Access`; only the three variants
the generator distinguishes). -/
inductive Access
  | readOnly
  | writeOnly
  | readWrite
deriving DecidableEq, Repr

/-- Usage tag of an enumerated-value set (svd crate `Usage`). -/
inductive Usage
  | read
  | write
  | readWrite
deriving DecidableEq, Repr

/-- One enumerated value entry (svd crate `EnumeratedValue`). -/
structure EnumeratedValue where
  name : String
  description : Option String
  value : Option Nat
deriving DecidableEq, Repr

/-- One enumerated-value set (svd crate `EnumeratedValues`). -/
structure EnumeratedValues where
  name : Option String
  usage : Option Usage
  derived_from : Option String
  values : List EnumeratedValue
deriving DecidableEq, Repr

/-- Bit range of a field (svd crate `BitRange`). -/
structure BitRange where
  offset : Nat
  width : Nat
deriving DecidableEq, Repr

/-- One field (svd crate `Field`). -/
structure Field where
  name : String
  description : Option String
  bit_range : BitRange
  access : Option Access
  enumerated_values : List EnumeratedValues
deriving DecidableEq, Repr

/-- Array dimension information (svd crate `RegisterArrayInfo`). -/
structure ArrayInfo where
  dim : Nat
  dim_increment : Nat
  dim_index : Option (List String)
deriving DecidableEq, Repr

/-- One register description (svd crate `RegisterInfo`). -/
structure RegisterInfo where
  name : String
  description : String
  address_offset : Nat
  size : Option Nat
  access : Option Access
  reset_value : Option Nat
  fields : Option (List Field)
deriving DecidableEq, Repr

/-- A register entry: single or array (svd crate `Register`). -/
inductive Register
  | single (info : RegisterInfo)
  | array (info : RegisterInfo) (array_info : ArrayInfo)
deriving DecidableEq, Repr

/-- The `RegisterInfo` a `Register` dereferences to (the svd crate's `Deref`
impl, through which the source reads `r.name`, `r.size`, etc.). -/
def Register.info' : Register → RegisterInfo
  | .single info => info
  | .array info _ => info

def Register.name (r : Register) : String := r.info'.name
def Register.size (r : Register) : Option Nat := r.info'.size
def Register.access? (r : Register) : Option Access := r.info'.access
def Register.reset_value (r : Register) : Option Nat := r.info'.reset_value
def Register.fields (r : Register) : Option (List Field) := r.info'.fields

/-- Generation defaults (svd crate `Defaults`): peripheral-wide register size
and reset value. -/
structure Defaults where
  size : Option Nat
  reset_value : Option Nat
deriving DecidableEq, Repr

/-- One peripheral (svd crate `Peripheral`), restricted to the parts the
generator reads. -/
structure Peripheral where
  name : String
  description : Option String
  derived_from : Option String
  registers : Option (List Register)
deriving DecidableEq, Repr

/-! ## Width classifier and access classifier -/

/-- Mirrors `U32Ext::to_ty` (src/lib.rs lines 1222-1231): number of bits of
the smallest natural storage type holding a width, fatal outside 1..=32. -/
def to_ty (w : Nat) : Except String Nat :=
  if 1 ≤ w ∧ w ≤ 8 then .ok 8
  else if 9 ≤ w ∧ w ≤ 16 then .ok 16
  else if 17 ≤ w ∧ w ≤ 32 then .ok 32
  else .error "to_ty: width out of range"

/-- Mirrors `access` (src/lib.rs lines 481-493): explicit register access
wins; otherwise all fields explicitly read-only gives read-only, all fields
explicitly write-only gives write-only, anything else (including no fields)
gives read-write. -/
def access (r : Register) : Access :=
  match r.access? with
  | some a => a
  | none =>
    match r.fields with
    | some fields =>
      if fields.all (fun f => f.access = some Access.readOnly) then .readOnly
      else if fields.all (fun f => f.access = some Access.writeOnly) then .writeOnly
      else .readWrite
    | none => .readWrite

/-- Mirrors `type_of` (src/lib.rs lines 466-479): the register's generated
type name; for arrays the repetition placeholder is removed first. -/
def type_of (r : Register) : String :=
  let ty :=
    match r with
    | .single info => info.name
    | .array info _ =>
      if containsSubstr info.name "[%s]" then
        stringReplace info.name "[%s]" ""
      else
        stringReplace info.name "%s" ""
  to_sanitized_pascal_case ty

/-! ## Register-array expander -/

/-- Mirrors `ExpandedRegister` (src/lib.rs lines 395-400).  The `ty` field is
`Either`: left an owned type name (single register), right a handle shared by
all instances of one array (the source shares one `Rc<String>`). -/
structure ExpandedRegister where
  info : RegisterInfo
  name : String
  offset : Nat
  ty : String ⊕ String
deriving DecidableEq, Repr

/-- Stable insertion by ascending offset: the new element goes after every
element already placed whose offset is not greater.  Models the behavior of
the stable `sort_by_key` used by `expand`. -/
def insertByOffset (x : ExpandedRegister) : List ExpandedRegister → List ExpandedRegister
  | [] => [x]
  | y :: ys =>
    if x.offset ≤ y.offset then x :: y :: ys
    else y :: insertByOffset x ys

/-- Stable sort by ascending offset (models `sort_by_key(|x| x.offset)`,
which is a stable sort; any stable sort by the same key yields the same
list). -/
def sortByOffset : List ExpandedRegister → List ExpandedRegister
  | [] => []
  | x :: xs => insertByOffset x (sortByOffset xs)

/-- The unsorted body of `expand` (src/lib.rs lines 405-459): single
registers yield one entry; array registers yield one entry per index label
(explicit labels, else the decimal strings 0..dim-1), at positional offset
base + i * increment, all sharing one type handle. -/
def expandUnsorted (registers : List Register) : List ExpandedRegister :=
  registers.flatMap (fun r =>
    match r with
    | .single info =>
      [{ info := info
         name := to_sanitized_snake_case info.name
         offset := info.address_offset
         ty := .inl (to_sanitized_pascal_case info.name) }]
    | .array info array_info =>
      let has_brackets := containsSubstr info.name "[%s]"
      let ty :=
        if has_brackets then stringReplace info.name "[%s]" ""
        else stringReplace info.name "%s" ""
      let ty := to_sanitized_pascal_case ty
      let indices :=
        match array_info.dim_index with
        | some v => v
        | none => (List.range array_info.dim).map (fun i => toString i)
      (List.zip indices (List.range indices.length)).map (fun (idx, i) =>
        let name :=
          if has_brackets then stringReplace info.name "[%s]" idx
          else stringReplace info.name "%s" idx
        { info := info
          name := to_sanitized_snake_case name
          offset := info.address_offset + i * array_info.dim_increment
          ty := .inr ty }))

/-- Mirrors `expand` (src/lib.rs lines 405-464): expansion followed by the
stable sort by ascending offset. -/
def expand (registers : List Register) : List ExpandedRegister :=
  sortByOffset (expandUnsorted registers)

/-! ## Layout builder (the loop of `gen_peripheral`, src/lib.rs lines 307-358) -/

/-- One element of the peripheral's memory-layout struct: an anonymous
padding field `_reservedN` of some bytes, or a register field.  The register
element records the byte size the layout bookkeeping assigns it (resolved
bit size divided by 8). -/
inductive LayoutField
  | padding (index : Nat) (bytes : Nat)
  | register (name : String) (offset : Nat) (sizeBytes : Nat) (doc : String)
deriving DecidableEq, Repr

/-- State of the layout loop: the cursor (`offset` in the source), the
padding counter (`i`), the emitted struct fields, and the overlap warnings
(register name and offset) printed to stderr. -/
structure LayoutState where
  offset : Nat
  i : Nat
  fields : List LayoutField
  warnings : List (String × Nat)
deriving DecidableEq, Repr

/-- One iteration of the layout loop (src/lib.rs lines 313-358):
`checked_sub` fails when the register offset is below the cursor, in which
case a warning is recorded and the register is skipped; otherwise padding is
inserted for a positive gap, the register field is appended, and the cursor
advances to offset plus the resolved size in bytes (fatal when no size
resolves). -/
def layoutStep (d : Defaults) (st : LayoutState) (register : ExpandedRegister) :
    Except String LayoutState :=
  if register.offset < st.offset then
    .ok { st with warnings := st.warnings ++ [(register.name, register.offset)] }
  else
    let pad := register.offset - st.offset
    let fields := if pad ≠ 0 then st.fields ++ [.padding st.i pad] else st.fields
    let i := if pad ≠ 0 then st.i + 1 else st.i
    match register.info.size.or d.size with
    | none => .error "register has no size field"
    | some size =>
      let doc := respace register.info.description
      .ok { offset := register.offset + size / 8
            i := i
            fields := fields ++ [.register register.name register.offset (size / 8) doc]
            warnings := st.warnings }

/-- The initial layout state (`offset = 0`, `i = 0`, src/lib.rs lines
307-308). -/
def initLayout : LayoutState := ⟨0, 0, [], []⟩

/-- Runs the layout loop from a given state. -/
def buildFrom (d : Defaults) (st : LayoutState) : List ExpandedRegister → Except String LayoutState
  | [] => .ok st
  | r :: rest => do buildFrom d (← layoutStep d st r) rest

/-- The whole layout loop of `gen_peripheral` over the expanded, sorted
register list. -/
def buildLayout (d : Defaults) (registers : List Register) : Except String LayoutState :=
  buildFrom d initLayout (expand registers)

/-- Mirrors the layout-building portion of `gen_peripheral` (src/lib.rs
lines 301-358): asserts the peripheral derivation is already resolved and
that a register list is present, then builds the layout. -/
def gen_peripheral_layout (p : Peripheral) (d : Defaults) : Except String LayoutState :=
  if p.derived_from.isSome then
    .error "DerivedFrom not supported here (should be resolved earlier)"
  else
    match p.registers with
    | none => .error "peripheral has no registers field"
    | some registers => buildLayout d registers

/-! ## Register API generator (`gen_register`, src/lib.rs lines 496-656) -/

/-- The operations `gen_register` can attach to a register wrapper type. -/
inductive RegisterOp
  | readBits
  | modifyBits
  | writeBits
  | modifyOp
  | readProxy
  | writeBuilder
  | readValue
  | writeValue
deriving DecidableEq, Repr

/-- Mirrors the operation set emitted by `gen_register` (src/lib.rs lines
496-656), keyed by access mode and field presence.  `writeBuilder` is the
closure-taking `write` whose body starts from `W::reset_value()`;
`readProxy` the proxy-returning `read`; `readValue`/`writeValue` the plain
value forms of fieldless registers; the `Bits` forms the raw operations.
Fatal when no size resolves or the width classifier rejects it. -/
def gen_register_ops (r : Register) (d : Defaults) : Except String (List RegisterOp) := do
  let size ←
    match r.size.or d.size with
    | some s => pure s
    | none => .error "register has no size field"
  let _bits_ty ← to_ty size
  match r.fields with
  | some _ =>
    match access r with
    | .readOnly => .ok [.readBits, .readProxy]
    | .readWrite => .ok [.readBits, .modifyBits, .writeBits, .modifyOp, .readProxy, .writeBuilder]
    | .writeOnly => .ok [.writeBits, .writeBuilder]
  | none =>
    match access r with
    | .readOnly => .ok [.readValue]
    | .readWrite => .ok [.readValue, .writeValue]
    | .writeOnly => .ok [.writeValue]

/-! ## The read-modify-write contract of `modify` (src/lib.rs lines 571-579)

The volatile register storage is modelled as a bit value together with the
trace of reads performed (each recording the value returned) and of writes
performed (each recording the value written). -/

/-- Instrumented volatile storage. -/
structure RegState where
  bits : Nat
  reads : List Nat
  writes : List Nat
deriving DecidableEq, Repr

/-- One volatile read: returns the current bits and records the read. -/
def volRead (s : RegState) : Nat × RegState :=
  (s.bits, { s with reads := s.reads ++ [s.bits] })

/-- One volatile write: stores the value and records the write. -/
def volWrite (v : Nat) (s : RegState) : RegState :=
  { s with bits := v, writes := s.writes ++ [v] }

/-- Mirrors the body of the generated `modify` (src/lib.rs lines 571-579):
one read, the read-proxy and the write-proxy both seeded with the bits that
read returned, the closure `f` applied (modelled as the function from the
read-proxy bits and the seeded write-proxy bits to the final write-proxy
bits), then one write of the final bits. -/
def modifyGenerated (f : Nat → Nat → Nat) (s : RegState) : RegState :=
  let (bits, s1) := volRead s
  let r := bits
  let w := bits
  let w := f r w
  volWrite w s1

/-! ## Field accessor generator, read view (`gen_register_r`, src/lib.rs
lines 659-921) -/

/-- Binary rendering of a number, as Rust binary formatting produces it
(most significant digit first, no leading zeros, zero printed as "0");
used for the synthesized `_ReservedN` variant names. -/
def binCharsGo : Nat → Nat → List Char
  | 0, _ => []
  | fuel + 1, n =>
    if n = 0 then []
    else binCharsGo fuel (n / 2) ++ [if n % 2 = 1 then '1' else '0']

/-- Binary rendering entry point. -/
def binString (n : Nat) : String :=
  if n = 0 then "0" else String.mk (binCharsGo n n)

/-- One variant of a generated read-view enumerated type. -/
structure RVariant where
  ident : String
  value : Nat
  reserved : Bool
deriving DecidableEq, Repr

/-- Mirrors the variant-construction loop of `gen_register_r` (src/lib.rs
lines 782-842): for every integer in [0, 2^width), the first declared entry
with that value names the variant (sanitized pascal case); otherwise a
hidden reserved variant named after the binary rendering of the code is
synthesized. -/
def mkRVariantAt (evs : EnumeratedValues) (i : Nat) : RVariant :=
  match evs.values.find? (fun ev => ev.value = some i) with
  | some evalue =>
    { ident := to_sanitized_pascal_case evalue.name, value := i, reserved := false }
  | none =>
    { ident := "_Reserved" ++ binString i, value := i, reserved := true }

/-- The full variant list of a generated read-view enumerated type: one
variant per integer in [0, 2^width). -/
def mkRVariants (evs : EnumeratedValues) (width : Nat) : List RVariant :=
  (List.range (2 ^ width)).map (mkRVariantAt evs)

/-- The integer-to-variant mapping of the generated enum's `from` method:
the match arm whose pattern is the code, i.e. the variant carrying that
value. -/
def rDecode (variants : List RVariant) (c : Nat) : Option RVariant :=
  variants.find? (fun v => v.value = c)

/-- The variant-to-integer mapping of the generated enum's `bits` method. -/
def rEncode (v : RVariant) : Nat := v.value

/-- The `is_VARIANT` predicate methods generated for the non-reserved
variants (src/lib.rs lines 831-841), named from the raw entry name
snake-cased. -/
def rIsMethods (evs : EnumeratedValues) (width : Nat) : List String :=
  ((List.range (2 ^ width)).filterMap (fun i =>
    (evs.values.find? (fun ev => ev.value = some i)).map (fun ev =>
      "is_" ++ to_snake_case ev.name)))

/-- Resolution of a derivation reference for the read view (src/lib.rs lines
721-755): a qualified "REGISTER.FIELD" reference searches the named
register's fields, a bare reference the current field's own sets; in the
found haystack, the first set with the referenced name whose usage is not
Write; every failure is fatal. -/
def rResolveDerived (fields : List Field) (all_registers : List Register)
    (base : String) : Except String (EnumeratedValues × Bool × Option String) := do
  let (haystack, needle, base') ←
    if base.data.contains '.' then
      let parts := splitOnDot base.data
      let registerName := String.mk ((parts.head?).getD [])
      let fieldName := String.mk ((parts.drop 1).headD [])
      match all_registers.find? (fun r => r.name = registerName) with
      | none => .error "base register not found"
      | some r =>
        match r.fields with
        | none => .error "no fields node"
        | some fs => pure (fs, fieldName, some registerName)
    else
      pure (fields, base, (none : Option String))
  match (haystack.flatMap (fun f => f.enumerated_values)).find?
      (fun evs => evs.name = some needle ∧ evs.usage ≠ some Usage.write) with
  | some evs => pure (evs, true, base')
  | none => .error "base enumeratedValues not found"

/-- Selection of the enumerated-value set used for the read view (src/lib.rs
lines 718-767): with exactly one declared set, that set is taken (resolving
its derivation reference if any); otherwise the first set tagged Read or
ReadWrite. -/
def rSelectEvs (field : Field) (fields : List Field) (all_registers : List Register) :
    Except String (Option (EnumeratedValues × Bool × Option String)) :=
  if field.enumerated_values.length = 1 then
    match field.enumerated_values.head? with
    | none => pure none
    | some evs =>
      match evs.derived_from with
      | some base => do pure (some (← rResolveDerived fields all_registers base))
      | none => pure (some (evs, false, none))
  else
    pure ((field.enumerated_values.find? (fun evs =>
      evs.usage = some Usage.read ∨ evs.usage = some Usage.readWrite)).map
        (fun evs => (evs, false, none)))

/-- Shape of the accessor `gen_register_r` emits for one field. -/
inductive RAccessorKind
  | enumerated (enumIdent : String) (offset : Nat) (width : Nat)
  | boolean (offset : Nat)
  | integer (offset : Nat) (width : Nat)
deriving DecidableEq, Repr

/-- Top-level items `gen_register_r` can emit besides the proxy struct's
impl block. -/
inductive RItem
  | structDecl (ident : String)
  | enumDecl (ident : String) (variants : List RVariant) (methods : List String)
  | aliasDecl (ident : String) (target : String)
deriving DecidableEq, Repr

/-- Members of the read-proxy impl block. -/
inductive RImplItem
  | doc (text : String)
  | accessor (name : String) (kind : RAccessorKind)
deriving DecidableEq, Repr

/-- The doc comment emitted for a field (src/lib.rs lines 700-713 and
975-988): bit range and respaced description. -/
def fieldDoc (field : Field) : Option String :=
  field.description.map (fun description =>
    let width := field.bit_range.width
    let bits :=
      if width = 1 then "Bit " ++ toString field.bit_range.offset
      else "Bits " ++ toString field.bit_range.offset ++ ":" ++
        toString (field.bit_range.offset + width - 1)
    bits ++ " - " ++ respace description)

/-- The body of the per-field loop of `gen_register_r` (src/lib.rs lines
684-912) for one field: fields named "reserved" (case-insensitively) and
write-only fields are skipped; otherwise the enumerated accessor (with enum
declaration when not derived, and a type alias once per enum name when
derived across registers), the boolean accessor for width one, or the plain
integer accessor.  Returns the top-level items, the impl items, and the
updated alias registry. -/
def genFieldR (rname : String) (fields : List Field) (all_registers : List Register)
    (aliases : List String) (field : Field) :
    Except String (List RItem × List RImplItem × List String) := do
  if lowerString field.name = "reserved" then
    pure ([], [], aliases)
  else if field.access = some Access.writeOnly then
    pure ([], [], aliases)
  else
    let name := to_sanitized_snake_case field.name
    let offset := field.bit_range.offset % 256
    let width := field.bit_range.width
    let docItems : List RImplItem :=
      match fieldDoc field with
      | some comment => [.doc comment]
      | none => []
    let _width_ty ← to_ty width
    let evalues ← rSelectEvs field fields all_registers
    match evalues with
    | some (evs, derived, base) =>
      let evs_name := (evs.name.map to_pascal_case).getD (to_pascal_case field.name)
      let enum_name := rname ++ "R" ++ evs_name
      let enumItems : List RItem :=
        if ¬ derived then [.enumDecl enum_name (mkRVariants evs width) (rIsMethods evs width)]
        else []
      let aliasItems : List RItem :=
        match base with
        | some b =>
          if enum_name ∈ aliases then []
          else [RItem.aliasDecl enum_name (to_sanitized_pascal_case b ++ "R" ++ evs_name)]
        | none => []
      let aliases' : List String :=
        match base with
        | some _ =>
          if enum_name ∈ aliases then aliases else aliases ++ [enum_name]
        | none => aliases
      pure (enumItems ++ aliasItems,
        docItems ++ [.accessor name (.enumerated enum_name offset width)], aliases')
    | none =>
      if width = 1 then
        pure ([], docItems ++ [.accessor name (.boolean offset)], aliases)
      else
        pure ([], docItems ++ [.accessor name (.integer offset width)], aliases)

/-- Folds the per-field loop of `gen_register_r` over the field list,
threading the alias registry. -/
def genFieldsR (rname : String) (fields : List Field) (all_registers : List Register) :
    List Field → List RItem × List RImplItem × List String →
    Except String (List RItem × List RImplItem × List String)
  | [], acc => pure acc
  | f :: fs, (items, implItems, aliases) => do
    let (i, ii, aliases') ← genFieldR rname fields all_registers aliases f
    genFieldsR rname fields all_registers fs (items ++ i, implItems ++ ii, aliases')

/-- Mirrors `gen_register_r` (src/lib.rs lines 659-921): the read-proxy
struct plus, per field, the items of `genFieldR`.  Fatal when no register
size resolves or a width is rejected. -/
def gen_register_r (r : Register) (d : Defaults) (fields : List Field)
    (all_registers : List Register) : Except String (List RItem × List RImplItem) := do
  let rname := type_of r
  let size ←
    match r.size.or d.size with
    | some s => pure s
    | none => .error "register has no size field"
  let _bits_ty ← to_ty size
  let (items, implItems, _) ←
    genFieldsR rname fields all_registers fields ([.structDecl (rname ++ "R")], [], [])
  pure (items, implItems)

/-- Value semantics of the generated boolean read accessor (src/lib.rs lines
893-899): the register bits masked with one shifted to the field offset,
compared against zero. -/
def rBoolEval (offset bits : Nat) : Bool :=
  bits &&& (1 <<< offset) ≠ 0

/-- Value semantics of the generated integer read accessor (src/lib.rs lines
901-908): the bits shifted down by the offset, truncated by the cast to the
field's natural width type (wt bits), then masked to the field width. -/
def rIntEval (wt offset width bits : Nat) : Nat :=
  ((bits >>> offset) % 2 ^ wt) &&& (2 ^ width - 1)

/-- Value semantics of the generated enumerated read accessor (src/lib.rs
lines 884-891): the same shift-and-mask feeding the integer-to-variant
mapping. -/
def rEnumEval (variants : List RVariant) (wt offset width bits : Nat) : Option RVariant :=
  rDecode variants (rIntEval wt offset width bits)

/-! ## Field accessor generator, write view (`gen_register_w`, src/lib.rs
lines 924-1216) -/

/-- Resolution of a derivation reference for the write view (src/lib.rs
lines 996-1029); like the read view but the referenced set's usage must not
be Read. -/
def wResolveDerived (fields : List Field) (all_registers : List Register)
    (base : String) : Except String (EnumeratedValues × Bool × Option String) := do
  let (haystack, needle, base') ←
    if base.data.contains '.' then
      let parts := splitOnDot base.data
      let registerName := String.mk ((parts.head?).getD [])
      let fieldName := String.mk ((parts.drop 1).headD [])
      match all_registers.find? (fun r => r.name = registerName) with
      | none => .error "base register not found"
      | some r =>
        match r.fields with
        | none => .error "no fields node"
        | some fs => pure (fs, fieldName, some registerName)
    else
      pure (fields, base, (none : Option String))
  match (haystack.flatMap (fun f => f.enumerated_values)).find?
      (fun evs => evs.name = some needle ∧ evs.usage ≠ some Usage.read) with
  | some evs => pure (evs, true, base')
  | none => .error "base enumeratedValues not found"

/-- Selection of the enumerated-value set used for the write view
(src/lib.rs lines 993-1041): with exactly one declared set, that set is
taken (resolving its derivation reference if any); otherwise the first set
tagged Write or ReadWrite. -/
def wSelectEvs (field : Field) (fields : List Field) (all_registers : List Register) :
    Except String (Option (EnumeratedValues × Bool × Option String)) :=
  if field.enumerated_values.length = 1 then
    match field.enumerated_values.head? with
    | none => pure none
    | some evs =>
      match evs.derived_from with
      | some base => do pure (some (← wResolveDerived fields all_registers base))
      | none => pure (some (evs, false, none))
  else
    pure ((field.enumerated_values.find? (fun evs =>
      evs.usage = some Usage.write ∨ evs.usage = some Usage.readWrite)).map
        (fun evs => (evs, false, none)))

/-- Top-level items `gen_register_w` can emit.  A `proxyImpl` method and an
`enumDecl` variant carry the entry's sanitized name and its declared
value. -/
inductive WItem
  | structDecl (ident : String)
  | proxyDecl (ident : String)
  | proxyImpl (ident : String) (methods : List (String × Nat))
  | enumDecl (ident : String) (variants : List (String × Nat))
  | aliasDecl (ident : String) (target : String)
deriving DecidableEq, Repr

/-- Members of the write-proxy impl block.  The `bitsSetter`'s `safe` flag
records whether it is emitted without the unsafe qualifier. -/
inductive WImplItem
  | resetValue (value : Nat)
  | doc (text : String)
  | proxyAccessor (name : String) (proxyIdent : String)
  | bitsSetter (name : String) (safe : Bool) (offset : Nat) (width : Nat)
  | enumSetter (name : String) (enumIdent : String) (offset : Nat) (width : Nat)
  | boolSetter (name : String) (offset : Nat)
  | intSetter (name : String) (offset : Nat) (width : Nat)
deriving DecidableEq, Repr

/-- The body of the per-field loop of `gen_register_w` (src/lib.rs lines
960-1206) for one field: reserved-named and read-only fields are skipped;
a resolved enumerated set produces the sub-proxy type with one method per
named value, the proxy accessor, the raw-bits setter (safe exactly when the
number of declared entries equals two to the field width), and the
enumerated setter, plus the enum declaration when not derived and a type
alias once per enum name when derived across registers; otherwise the
boolean setter for width one or the plain integer setter. -/
def genFieldW (rname : String) (fields : List Field) (all_registers : List Register)
    (aliases : List String) (field : Field) :
    Except String (List WItem × List WImplItem × List String) := do
  if lowerString field.name = "reserved" then
    pure ([], [], aliases)
  else if field.access = some Access.readOnly then
    pure ([], [], aliases)
  else
    let name := to_sanitized_snake_case field.name
    let offset := field.bit_range.offset % 256
    let width := field.bit_range.width
    let docItems : List WImplItem :=
      match fieldDoc field with
      | some comment => [.doc comment]
      | none => []
    let _width_ty ← to_ty width
    let evalues ← wSelectEvs field fields all_registers
    match evalues with
    | some (evs, derived, base) =>
      let evs_name := (evs.name.map to_sanitized_pascal_case).getD
        (to_sanitized_pascal_case field.name)
      let enum_name := rname ++ "W" ++ evs_name
      let proxy_name := "_" ++ rname ++ "W" ++ to_sanitized_pascal_case field.name
      let entries ← evs.values.mapM (fun ev =>
        match ev.value with
        | some value => pure (ev, value)
        | none => Except.error "no value node in enumeratedValue")
      let methods := entries.map (fun (ev, value) => (to_sanitized_snake_case ev.name, value))
      let variants := entries.map (fun (ev, value) => (to_sanitized_pascal_case ev.name, value))
      let all_variants_covered := variants.length = 2 ^ field.bit_range.width
      let enumItems : List WItem :=
        if ¬ derived then [.enumDecl enum_name variants] else []
      let aliasItems : List WItem :=
        match base with
        | some b =>
          if enum_name ∈ aliases then []
          else [WItem.aliasDecl enum_name (to_sanitized_pascal_case b ++ "W" ++ evs_name)]
        | none => []
      let aliases' : List String :=
        match base with
        | some _ =>
          if enum_name ∈ aliases then aliases else aliases ++ [enum_name]
        | none => aliases
      pure ([WItem.proxyDecl proxy_name, WItem.proxyImpl proxy_name methods] ++
          enumItems ++ aliasItems,
        docItems ++
          [.proxyAccessor name proxy_name,
           .bitsSetter (to_sanitized_snake_case field.name ++ "_bits")
             all_variants_covered offset width,
           .enumSetter (to_sanitized_snake_case field.name ++ "_enum")
             enum_name offset width],
        aliases')
    | none =>
      if width = 1 then
        pure ([], docItems ++ [.boolSetter name offset], aliases)
      else
        pure ([], docItems ++ [.intSetter name offset width], aliases)

/-- Folds the per-field loop of `gen_register_w` over the field list,
threading the alias registry. -/
def genFieldsW (rname : String) (fields : List Field) (all_registers : List Register) :
    List Field → List WItem × List WImplItem × List String →
    Except String (List WItem × List WImplItem × List String)
  | [], acc => pure acc
  | f :: fs, (items, implItems, aliases) => do
    let (i, ii, aliases') ← genFieldW rname fields all_registers aliases f
    genFieldsW rname fields all_registers fs (items ++ i, implItems ++ ii, aliases')

/-- Mirrors `gen_register_w` (src/lib.rs lines 924-1216): the write-proxy
struct, the `reset_value` constructor exactly when a register-level or
default reset value resolves (lines 947-957), then the per-field items. -/
def gen_register_w (r : Register) (d : Defaults) (fields : List Field)
    (all_registers : List Register) : Except String (List WItem × List WImplItem) := do
  let rname := type_of r
  let size ←
    match r.size.or d.size with
    | some s => pure s
    | none => .error "register has no size field"
  let _bits_ty ← to_ty size
  let resetItems : List WImplItem :=
    match r.reset_value.or d.reset_value with
    | some v => [.resetValue v]
    | none => []
  let (items, implItems, _) ←
    genFieldsW rname fields all_registers fields
      ([.structDecl (rname ++ "W")], resetItems, [])
  pure (items, implItems)

/-! ## Value semantics of the generated write-proxy setters

The write proxy holds `bits` of the register's storage type (`rw` bits
wide); each setter mutates them and returns the proxy for chaining.  Rust
arithmetic on the storage type is modelled with explicit truncation
`% 2 ^ rw`; complement on the storage type is xor against `2 ^ rw - 1`. -/

/-- Truncation to the register storage width. -/
def trunc (rw n : Nat) : Nat := n % 2 ^ rw

/-- The boolean setter body (src/lib.rs lines 1183-1194): set or clear the
single bit at the offset. -/
def wBoolApply (rw offset : Nat) (value : Bool) (bits : Nat) : Nat :=
  if value then bits ||| trunc rw (1 <<< offset)
  else bits &&& ((2 ^ rw - 1) ^^^ trunc rw (1 <<< offset))

/-- The plain integer setter body (src/lib.rs lines 1196-1205).  The
source's clear step reads `bits &= !(MASK as bits_ty) << OFFSET`: by Rust
operator precedence the complement applies to the mask alone and the
complemented mask is then shifted, so the AND clears every bit below
`offset + width`, not just the field's bits. -/
def wIntApply (rw offset width : Nat) (value bits : Nat) : Nat :=
  let mask := 2 ^ width - 1
  let cleared := bits &&& trunc rw (((2 ^ rw - 1) ^^^ mask) <<< offset)
  cleared ||| trunc rw ((value &&& mask) <<< offset)

/-- The raw-bits setter body (src/lib.rs lines 1142-1165, identical for the
safe and unsafe form): clear the field's mask, then OR in the masked value
shifted to the offset. -/
def wBitsApply (rw offset width : Nat) (value bits : Nat) : Nat :=
  let mask := 2 ^ width - 1
  let cleared := bits &&& ((2 ^ rw - 1) ^^^ trunc rw (mask <<< offset))
  cleared ||| trunc rw ((value &&& mask) <<< offset)

/-- The enumerated setter body (src/lib.rs lines 1172-1181): the variant's
code (its `bits` method) fed through the same clear-then-OR. -/
def wEnumApply (rw offset width : Nat) (code bits : Nat) : Nat :=
  wBitsApply rw offset width code bits

/-- One sub-proxy convenience method body (src/lib.rs lines 1071-1080):
clear the field's mask, then OR in the entry's declared value shifted to the
offset (the declared value is not masked). -/
def wProxyMethodApply (rw offset width : Nat) (value bits : Nat) : Nat :=
  let mask := 2 ^ width - 1
  let cleared := bits &&& ((2 ^ rw - 1) ^^^ trunc rw (mask <<< offset))
  cleared ||| trunc rw (value <<< offset)


/-! ## Layout measures and item recognizers -/

/-- Recognizer for the reset-value constructor among write-proxy impl
items. -/
def isResetValue : WImplItem → Bool
  | .resetValue _ => true
  | _ => false

/-- The byte size of one layout element: the padding bytes, or the byte
size the layout bookkeeping assigns the register. -/
def elemSize : LayoutField → Nat
  | .padding _ bytes => bytes
  | .register _ _ sizeBytes _ => sizeBytes

/-- Total byte size of a layout. -/
def sumSizes (fields : List LayoutField) : Nat :=
  (fields.map elemSize).sum

/-- The end offsets (offset plus byte size) of the register elements of a
layout. -/
def regEnds (fields : List LayoutField) : List Nat :=
  fields.filterMap (fun fld =>
    match fld with
    | .register _ offset sizeBytes _ => some (offset + sizeBytes)
    | .padding _ _ => none)

/-- Maximum of a list of naturals (zero for the empty list). -/
def maxNat (l : List Nat) : Nat :=
  l.foldr max 0

/-! ## Concrete fixtures used by the claim theorems -/

/-- C1 fixture: a one-bit field. -/
def c1field : Field := ⟨"f1", none, ⟨0, 1⟩, none, []⟩

/-- C1 fixture: a read-write register with a field, a size, and no reset
value anywhere. -/
def c1reg : Register := .single ⟨"CTRL", "control register", 0, some 32, none, none, some [c1field]⟩

/-- C2 fixture: a single enumerated set tagged Write, with no derivation
reference. -/
def c2evs : EnumeratedValues := ⟨some "VALS", some .write, none, [⟨"A", none, some 0⟩]⟩

/-- C2 fixture: a field declaring exactly the Write-tagged set. -/
def c2field : Field := ⟨"mode", none, ⟨0, 1⟩, none, [c2evs]⟩

/-- C3 fixture: an untagged enumerated set. -/
def c3evs : EnumeratedValues := ⟨some "VALS", none, none, [⟨"A", none, some 0⟩]⟩

/-- C3 fixture: a field of bit width 1 that declares an enumerated set. -/
def c3field : Field := ⟨"flag", none, ⟨0, 1⟩, none, [c3evs]⟩

/-- C4 fixture: a field at bits 0..3 that the modify closure does not
touch. -/
def c4low : Field := ⟨"low", none, ⟨0, 4⟩, none, []⟩

/-- C4 fixture: a field at bits 4..7 that the modify closure sets. -/
def c4high : Field := ⟨"high", none, ⟨4, 4⟩, none, []⟩

/-- C4 fixture: the read-write register holding both fields. -/
def c4reg : Register := .single ⟨"CTRL", "control", 0, some 32, none, none, some [c4low, c4high]⟩

/-- C6 fixture: first register targeting offset 4 with a 4-bit size. -/
def c6regA : ExpandedRegister := ⟨⟨"A", "da", 4, some 4, none, none, none⟩, "a", 4, .inl "A"⟩

/-- C6 fixture: second register targeting the same offset 4. -/
def c6regB : ExpandedRegister := ⟨⟨"B", "db", 4, some 4, none, none, none⟩, "b", 4, .inl "B"⟩

/-- C9 fixture: a Write-tagged set of width 1 declaring two entries that
both carry value 0, so code 1 has no named variant while the entry count
equals two to the width. -/
def c9evs : EnumeratedValues := ⟨some "V", some .write, none, [⟨"A", none, some 0⟩, ⟨"B", none, some 0⟩]⟩

/-- C9 fixture: the field declaring that set. -/
def c9field : Field := ⟨"sel", none, ⟨0, 1⟩, none, [c9evs]⟩

/-- C5 fixture: an untagged read set declaring one value. -/
def c5evs : EnumeratedValues := ⟨some "V", none, none, [⟨"OFF", none, some 0⟩]⟩

/-! ## Claim C10: reserved-named fields are absent from the per-field API -/

/-- C10: for every field whose name equals "reserved" ignoring case, the
per-field loops of both the read view and the write view emit nothing at
all — no accessor, no setter, no enumerated type, no sub-proxy — regardless
of the field's access mode or enumerated-value sets. -/
theorem c10_reserved_fields_generate_nothing
    (rname : String) (fields : List Field) (all_registers : List Register)
    (aliases : List String) (field : Field)
    (h : lowerString field.name = "reserved") :
    genFieldR rname fields all_registers aliases field = .ok ([], [], aliases) ∧
    genFieldW rname fields all_registers aliases field = .ok ([], [], aliases) := by
  constructor <;> simp [genFieldR, genFieldW, h] <;> rfl

/-- C10 witness: the theorem applied to a field named "RESERVED". -/
theorem c10_witness :
    genFieldR "Ctrl" [] [] [] ⟨"RESERVED", none, ⟨0, 1⟩, some Access.readWrite, []⟩ = .ok ([], [], []) ∧
    genFieldW "Ctrl" [] [] [] ⟨"RESERVED", none, ⟨0, 1⟩, some Access.readWrite, []⟩ = .ok ([], [], []) :=
  c10_reserved_fields_generate_nothing "Ctrl" [] [] []
    ⟨"RESERVED", none, ⟨0, 1⟩, some Access.readWrite, []⟩ (by rfl)

/-! ## Claim C2: usage of a single non-derived enumerated set -/

/-- C2 counterexample: a field declaring exactly one non-derived set whose
usage tag is Write nevertheless gets that set selected for the read view,
and the generated read accessor is the enumerated one — the tag is never
consulted in the single-set case, contradicting the claim that a Write-
tagged set produces no enumerated read-view accessor. -/
theorem c2_counterexample :
    rSelectEvs c2field [c2field] [] = .ok (some (c2evs, false, none)) ∧
    genFieldR "Ctrl" [c2field] [] [] c2field =
      .ok ([.enumDecl "CtrlRVals" [⟨"A", 0, false⟩, ⟨"_Reserved1", 1, true⟩] ["is_a"]],
        [.accessor "mode" (.enumerated "CtrlRVals" 0 1)], []) := by
  exact ⟨rfl, rfl⟩

/-- C2 as amended: for every field that declares exactly one enumerated-
value set with no derivation reference, that set is selected for **both**
the read view and the write view, regardless of its usage tag. -/
theorem c2_single_set_used_for_both_views
    (field : Field) (fields : List Field) (all_registers : List Register)
    (evs : EnumeratedValues)
    (h1 : field.enumerated_values = [evs]) (h2 : evs.derived_from = none) :
    rSelectEvs field fields all_registers = .ok (some (evs, false, none)) ∧
    wSelectEvs field fields all_registers = .ok (some (evs, false, none)) := by
  constructor <;> simp [rSelectEvs, wSelectEvs, h1, h2] <;> rfl

/-- C2 witness: the amended theorem applied to the Write-tagged fixture. -/
theorem c2_witness :
    rSelectEvs c2field [c2field] [] = .ok (some (c2evs, false, none)) ∧
    wSelectEvs c2field [c2field] [] = .ok (some (c2evs, false, none)) :=
  c2_single_set_used_for_both_views c2field [c2field] [] c2evs (by rfl) (by rfl)

/-! ## Claim C1: builder-form write with no resolvable reset value -/

/-- C1: on a read-write register with fields and no resolvable reset value
(neither register-level nor in the defaults), `gen_register` still emits the
builder-form `write` (whose body starts from `W::reset_value()`), while
`gen_register_w` emits no `reset_value` constructor at all — so the
generated code references a missing constructor, where the claim (and the
spec) say the builder-form `write` is not generated. -/
theorem c1_builder_write_generated_without_reset_value :
    gen_register_ops c1reg ⟨none, none⟩ =
      .ok [.readBits, .modifyBits, .writeBits, .modifyOp, .readProxy, .writeBuilder] ∧
    RegisterOp.writeBuilder ∈
      [RegisterOp.readBits, .modifyBits, .writeBits, .modifyOp, .readProxy, .writeBuilder] ∧
    gen_register_w c1reg ⟨none, none⟩ [c1field] [c1reg] =
      .ok ([.structDecl "CtrlW"], [.boolSetter "f1" 0]) ∧
    ([WImplItem.boolSetter "f1" 0].all fun it => !isResetValue it) = true := by
  exact ⟨rfl, by decide, rfl, rfl⟩

/-! ## Claim C4: the read-modify-write contract of `modify` -/

/-- C4: the generated `modify` always performs exactly one read and one
write, and the write-proxy is seeded with the bits the read returned — but
the untouched-field preservation the claim states fails: the plain integer
setter `gen_register_w` emits (here for the field at bits 4..7) clears every
bit below the field as well, because its clear step shifts the complemented
mask instead of complementing the shifted mask.  Starting from bits 0xFF,
setting only the high field to 5 commits 0x50: the untouched low field's
bits 0..3 are lost (bit 0 was 1 before the modify and is 0 after). -/
theorem c4_modify_single_read_write_but_untouched_fields_lost :
    (∀ (f : Nat → Nat → Nat) (s : RegState),
      (modifyGenerated f s).reads = s.reads ++ [s.bits] ∧
      (modifyGenerated f s).writes = s.writes ++ [f s.bits s.bits] ∧
      (modifyGenerated f s).bits = f s.bits s.bits) ∧
    gen_register_ops c4reg ⟨none, none⟩ =
      .ok [.readBits, .modifyBits, .writeBits, .modifyOp, .readProxy, .writeBuilder] ∧
    genFieldW "Ctrl" [c4low, c4high] [] [] c4high = .ok ([], [.intSetter "high" 4 4], []) ∧
    modifyGenerated (fun _ w => wIntApply 32 4 4 5 w) ⟨0xFF, [], []⟩ = ⟨0x50, [0xFF], [0x50]⟩ ∧
    Nat.testBit 0xFF 0 = true ∧
    Nat.testBit 0x50 0 = false := by
  exact ⟨fun f s => ⟨rfl, rfl, rfl⟩, rfl, rfl, rfl, by decide, by decide⟩

/-! ## Claim C3: width-1 fields -/

/-- C3 counterexample: a field of bit width 1 that declares an enumerated
set gets the enumerated read accessor, not the boolean one — the enumerated
branch is checked before the width test, contradicting the claim that every
width-1 field gets a boolean accessor. -/
theorem c3_counterexample :
    genFieldR "Ctrl" [c3field] [] [] c3field =
      .ok ([.enumDecl "CtrlRVals" [⟨"A", 0, false⟩, ⟨"_Reserved1", 1, true⟩] ["is_a"]],
        [.accessor "flag" (.enumerated "CtrlRVals" 0 1)], []) ∧
    RImplItem.accessor "flag" (.boolean 0) ∉
      [RImplItem.accessor "flag" (.enumerated "CtrlRVals" 0 1)] := by
  exact ⟨rfl, by decide⟩

/-- Bits at or above the storage width of a value below 2^rw are clear. -/
theorem testBit_high_of_lt {bits rw : Nat} (hbits : bits < 2 ^ rw) {k : Nat} (hk : rw ≤ k) :
    Nat.testBit bits k = false :=
  Nat.testBit_eq_false_of_lt
    (lt_of_lt_of_le hbits (Nat.pow_le_pow_right (by norm_num) hk))

/-- The boolean read accessor returns exactly the bit at the field offset. -/
theorem rBoolEval_eq_testBit (off bits : Nat) :
    rBoolEval off bits = Nat.testBit bits off := by
  simp only [rBoolEval, Nat.shiftLeft_eq, one_mul, Nat.and_two_pow]
  cases h : bits.testBit off <;> simp [h, Nat.pow_eq_zero]

/-- The boolean write setter sets or clears exactly the bit at the field
offset and leaves every other bit unchanged. -/
theorem testBit_wBoolApply (rw off : Nat) (v : Bool) (bits : Nat)
    (hoff : off < rw) (hbits : bits < 2 ^ rw) (k : Nat) :
    Nat.testBit (wBoolApply rw off v bits) k = if k = off then v else Nat.testBit bits k := by
  have h1 : trunc rw (1 <<< off) = 2 ^ off := by
    unfold trunc
    rw [Nat.shiftLeft_eq, one_mul, Nat.mod_eq_of_lt (Nat.pow_lt_pow_right (by norm_num) hoff)]
  cases v with
  | true =>
    simp only [wBoolApply, if_pos, h1, Nat.testBit_or, Nat.testBit_two_pow]
    by_cases hk : k = off
    · simp [hk]
    · simp [hk, Ne.symm hk]
  | false =>
    simp only [wBoolApply, if_neg, Bool.false_eq_true, not_false_iff, h1,
      Nat.testBit_and, Nat.testBit_xor, Nat.testBit_two_pow_sub_one, Nat.testBit_two_pow]
    by_cases hk : k = off
    · simp [hk, hoff]
    · by_cases hrw : k < rw
      · simp [hk, Ne.symm hk, hrw]
      · simp [hk, Ne.symm hk, hrw, testBit_high_of_lt hbits (le_of_not_lt hrw)]

/-- C3 as amended: for every field of bit width 1 with **no resolved
enumerated set for the view** (and not otherwise skipped), the generated
read accessor is the boolean accessor and the generated write setter is the
boolean setter; the accessor returns true exactly when the bit at the
field offset is set, and the setter sets or clears exactly that bit of the
builder bits (returning the builder for chaining), leaving all other bits
unchanged. -/
theorem c3_width_one_boolean_accessor_and_setter
    (rname : String) (fields : List Field) (all_registers : List Register)
    (aliases : List String) (field : Field)
    (hname : ¬ lowerString field.name = "reserved")
    (hw : field.bit_range.width = 1) :
    (field.access ≠ some Access.writeOnly →
      rSelectEvs field fields all_registers = .ok none →
      genFieldR rname fields all_registers aliases field =
        .ok ([], (match fieldDoc field with
            | some c => [RImplItem.doc c]
            | none => []) ++
          [.accessor (to_sanitized_snake_case field.name)
            (.boolean (field.bit_range.offset % 256))], aliases)) ∧
    (field.access ≠ some Access.readOnly →
      wSelectEvs field fields all_registers = .ok none →
      genFieldW rname fields all_registers aliases field =
        .ok ([], (match fieldDoc field with
            | some c => [WImplItem.doc c]
            | none => []) ++
          [.boolSetter (to_sanitized_snake_case field.name)
            (field.bit_range.offset % 256)], aliases)) ∧
    (∀ off bits, rBoolEval off bits = Nat.testBit bits off) ∧
    (∀ rw off (v : Bool) bits k, off < rw → bits < 2 ^ rw →
      Nat.testBit (wBoolApply rw off v bits) k =
        if k = off then v else Nat.testBit bits k) := by
  refine ⟨?_, ?_, rBoolEval_eq_testBit, ?_⟩
  · intro hacc hsel
    simp [genFieldR, hname, hacc, hsel, hw, to_ty, bind, Except.bind, pure, Except.pure]
  · intro hacc hsel
    simp [genFieldW, hname, hacc, hsel, hw, to_ty, bind, Except.bind, pure, Except.pure]
  · intro rw off v bits k hoff hbits
    exact testBit_wBoolApply rw off v bits hoff hbits k

/-- C3 witness: the amended theorem applied to a plain one-bit field at
offset 3. -/
theorem c3_witness :
    genFieldR "Ctrl" [] [] [] (Field.mk "en" none (BitRange.mk 3 1) none []) =
      .ok ([], [.accessor "en" (.boolean 3)], []) ∧
    genFieldW "Ctrl" [] [] [] (Field.mk "en" none (BitRange.mk 3 1) none []) =
      .ok ([], [.boolSetter "en" 3], []) ∧
    rBoolEval 3 8 = Nat.testBit 8 3 ∧
    Nat.testBit (wBoolApply 32 3 true 0) 3 = if 3 = 3 then true else Nat.testBit 0 3 := by
  obtain h := c3_width_one_boolean_accessor_and_setter "Ctrl" [] [] []
    (Field.mk "en" none (BitRange.mk 3 1) none []) (by decide) rfl
  exact ⟨h.1 (by decide) rfl, h.2.1 (by decide) rfl, h.2.2.1 3 8,
    h.2.2.2 32 3 true 0 3 (by decide) (by decide)⟩

/-! ## Claim C6: overlap handling in the layout builder -/

/-- A register whose offset is below the cursor is dropped: the layout run
continues on the remaining registers with only a warning (naming the
register and its offset) added — cursor, padding counter and fields
untouched. -/
theorem buildFrom_drop (d : Defaults) (st : LayoutState) (r : ExpandedRegister)
    (rest : List ExpandedRegister) (h : r.offset < st.offset) :
    buildFrom d st (r :: rest) =
      buildFrom d { st with warnings := st.warnings ++ [(r.name, r.offset)] } rest := by
  simp [buildFrom, layoutStep, h, bind, Except.bind]

/-- C6 counterexample: two registers both targeting offset 4 whose resolved
size is 4 bits (0 bytes after the division by 8).  The cursor does not
advance past the first register, so the second is **kept** — it appears in
the layout and no warning is logged — contradicting the claim that of two
registers declared at the same offset the second is always absent. -/
theorem c6_counterexample :
    buildFrom ⟨none, none⟩ initLayout [c6regA, c6regB] =
      .ok ⟨4, 1, [.padding 0 4, .register "a" 4 0 "da", .register "b" 4 0 "db"], []⟩ ∧
    LayoutField.register "b" 4 0 "db" ∈
      [LayoutField.padding 0 4, .register "a" 4 0 "da", .register "b" 4 0 "db"] := by
  exact ⟨rfl, by decide⟩

/-- C6 as amended: every expanded register whose offset is below the
current cursor triggers a warning naming the register and its offset, is
dropped from the layout, and leaves the cursor unchanged, with generation
continuing for the remaining registers; and of two registers declared at
the same offset **whose first's resolved size is at least 8 bits** (so its
byte size is positive), the first is kept, layout advancement continues
from the first register's end, and the second is dropped with a warning. -/
theorem c6_overlapping_register_dropped :
    (∀ (d : Defaults) (st : LayoutState) (r : ExpandedRegister)
      (rest : List ExpandedRegister), r.offset < st.offset →
      buildFrom d st (r :: rest) =
        buildFrom d { st with warnings := st.warnings ++ [(r.name, r.offset)] } rest) ∧
    (∀ (d : Defaults) (st : LayoutState) (a b : ExpandedRegister)
      (rest : List ExpandedRegister) (sz : Nat),
      st.offset ≤ a.offset → b.offset = a.offset →
      a.info.size.or d.size = some sz → 8 ≤ sz →
      ∃ st1, layoutStep d st a = .ok st1 ∧
        st1.offset = a.offset + sz / 8 ∧
        LayoutField.register a.name a.offset (sz / 8) (respace a.info.description) ∈ st1.fields ∧
        st1.warnings = st.warnings ∧
        buildFrom d st (a :: b :: rest) =
          buildFrom d { st1 with warnings := st1.warnings ++ [(b.name, b.offset)] } rest) := by
  constructor
  · exact buildFrom_drop
  · intro d st a b rest sz hle hb hsz h8
    have hnot : ¬ a.offset < st.offset := not_lt.mpr hle
    have hstep : layoutStep d st a = .ok
        { offset := a.offset + sz / 8
          i := if a.offset - st.offset ≠ 0 then st.i + 1 else st.i
          fields := (if a.offset - st.offset ≠ 0 then
              st.fields ++ [.padding st.i (a.offset - st.offset)] else st.fields) ++
            [.register a.name a.offset (sz / 8) (respace a.info.description)]
          warnings := st.warnings } := by
      simp only [layoutStep, hnot, if_false, hsz]
    refine ⟨_, hstep, rfl, by simp, rfl, ?_⟩
    have hone : 1 ≤ sz / 8 := (Nat.one_le_div_iff (by norm_num)).mpr h8
    have hblt : b.offset < a.offset + sz / 8 := by omega
    calc buildFrom d st (a :: b :: rest)
        = buildFrom d _ (b :: rest) := by
          simp [buildFrom, hstep, bind, Except.bind]
      _ = _ := buildFrom_drop d _ b rest hblt

/-- C6 witness: the amended theorem applied to a register at offset 4 with
cursor already at 8, and to two 32-bit registers both declared at offset
0. -/
theorem c6_witness :
    buildFrom ⟨none, none⟩ ⟨8, 0, [], []⟩
        [⟨⟨"L", "dl", 4, some 32, none, none, none⟩, "l", 4, .inl "L"⟩] =
      buildFrom ⟨none, none⟩ ⟨8, 0, [], [("l", 4)]⟩ [] ∧
    ∃ st1, layoutStep ⟨none, none⟩ initLayout
        ⟨⟨"A", "da", 0, some 32, none, none, none⟩, "a", 0, .inl "A"⟩ = .ok st1 ∧
      st1.offset = 0 + 32 / 8 ∧
      LayoutField.register "a" 0 (32 / 8) (respace "da") ∈ st1.fields ∧
      st1.warnings = [] ∧
      buildFrom ⟨none, none⟩ initLayout
          [⟨⟨"A", "da", 0, some 32, none, none, none⟩, "a", 0, .inl "A"⟩,
           ⟨⟨"B", "db", 0, some 32, none, none, none⟩, "b", 0, .inl "B"⟩] =
        buildFrom ⟨none, none⟩ { st1 with warnings := st1.warnings ++ [("b", 0)] } [] := by
  obtain ⟨h1, h2⟩ := c6_overlapping_register_dropped
  exact ⟨h1 ⟨none, none⟩ ⟨8, 0, [], []⟩ _ [] (by decide),
    h2 ⟨none, none⟩ initLayout _ _ [] 32 (by decide) rfl rfl (by decide)⟩

/-! ## Claim C8: layout size accounting -/

/-- Sum of element sizes distributes over append. -/
theorem sumSizes_append (l1 l2 : List LayoutField) :
    sumSizes (l1 ++ l2) = sumSizes l1 + sumSizes l2 := by
  simp [sumSizes]

/-- Size of a single padding element. -/
theorem sumSizes_pad (i b : Nat) : sumSizes [LayoutField.padding i b] = b := by
  simp [sumSizes, elemSize]

/-- Size of a single register element. -/
theorem sumSizes_reg (n : String) (o sb : Nat) (doc : String) :
    sumSizes [LayoutField.register n o sb doc] = sb := by
  simp [sumSizes, elemSize]

/-- Register ends distribute over append. -/
theorem regEnds_append (l1 l2 : List LayoutField) :
    regEnds (l1 ++ l2) = regEnds l1 ++ regEnds l2 := by
  simp [regEnds]

/-- A padding element contributes no register end. -/
theorem regEnds_pad (i b : Nat) : regEnds [LayoutField.padding i b] = [] := rfl

/-- A register element contributes its end offset. -/
theorem regEnds_reg (n : String) (o sb : Nat) (doc : String) :
    regEnds [LayoutField.register n o sb doc] = [o + sb] := rfl

/-- Characterization of one successful layout step: either the register is
dropped (warning only), or it is appended with optional padding and the
cursor moves to its end. -/
theorem layoutStep_cases (d : Defaults) (st : LayoutState) (r : ExpandedRegister)
    (st1 : LayoutState) (h : layoutStep d st r = .ok st1) :
    (r.offset < st.offset ∧
      st1 = { st with warnings := st.warnings ++ [(r.name, r.offset)] }) ∨
    (st.offset ≤ r.offset ∧ ∃ sz, r.info.size.or d.size = some sz ∧
      st1 = { offset := r.offset + sz / 8
              i := if r.offset - st.offset ≠ 0 then st.i + 1 else st.i
              fields := (if r.offset - st.offset ≠ 0 then
                  st.fields ++ [.padding st.i (r.offset - st.offset)] else st.fields) ++
                [.register r.name r.offset (sz / 8) (respace r.info.description)]
              warnings := st.warnings }) := by
  by_cases hlt : r.offset < st.offset
  · left
    refine ⟨hlt, ?_⟩
    simp only [layoutStep, hlt, if_true] at h
    exact (Except.ok.inj h).symm
  · right
    refine ⟨le_of_not_lt hlt, ?_⟩
    cases hsz : r.info.size.or d.size with
    | none => simp [layoutStep, hlt, hsz] at h
    | some sz =>
      refine ⟨sz, rfl, ?_⟩
      simp only [layoutStep, hlt, if_false, hsz] at h
      exact (Except.ok.inj h).symm

/-- A successful layout run grows the layout by exactly as many bytes as
the cursor advances. -/
theorem buildFrom_sum (d : Defaults) :
    ∀ (regs : List ExpandedRegister) (st final : LayoutState),
    buildFrom d st regs = .ok final →
    sumSizes final.fields + st.offset = sumSizes st.fields + final.offset := by
  intro regs
  induction regs with
  | nil =>
    intro st final h
    cases Except.ok.inj h
    rfl
  | cons r rest ih =>
    intro st final h
    simp only [buildFrom] at h
    cases hstep : layoutStep d st r with
    | error e => rw [hstep] at h; exact absurd h (by simp [bind, Except.bind])
    | ok st1 =>
      rw [hstep] at h
      simp only [bind, Except.bind] at h
      have h2 := ih st1 final h
      rcases layoutStep_cases d st r st1 hstep with ⟨_, rfl⟩ | ⟨hle, sz, _, rfl⟩
      · exact h2
      · dsimp only at h2
        rw [sumSizes_append] at h2
        by_cases hpad : r.offset - st.offset ≠ 0
        · rw [if_pos hpad, sumSizes_append, sumSizes_pad, sumSizes_reg] at h2
          omega
        · rw [if_neg hpad, sumSizes_reg] at h2
          omega

/-- Every register end in the layout stays at or below the cursor, an
invariant of the run. -/
theorem buildFrom_ends_le (d : Defaults) :
    ∀ (regs : List ExpandedRegister) (st final : LayoutState),
    buildFrom d st regs = .ok final →
    (∀ e ∈ regEnds st.fields, e ≤ st.offset) →
    ∀ e ∈ regEnds final.fields, e ≤ final.offset := by
  intro regs
  induction regs with
  | nil =>
    intro st final h hinv
    cases Except.ok.inj h
    exact hinv
  | cons r rest ih =>
    intro st final h hinv
    simp only [buildFrom] at h
    cases hstep : layoutStep d st r with
    | error e => rw [hstep] at h; exact absurd h (by simp [bind, Except.bind])
    | ok st1 =>
      rw [hstep] at h
      simp only [bind, Except.bind] at h
      refine ih st1 final h ?_
      rcases layoutStep_cases d st r st1 hstep with ⟨_, rfl⟩ | ⟨hle, sz, _, rfl⟩
      · exact hinv
      · intro e he
        dsimp only at he ⊢
        rw [regEnds_append] at he
        by_cases hpad : r.offset - st.offset ≠ 0
        · rw [if_pos hpad, regEnds_append, regEnds_pad, regEnds_reg] at he
          simp only [List.append_nil, List.mem_append, List.mem_singleton] at he
          rcases he with he | rfl
          · have := hinv e he
            omega
          · omega
        · rw [if_neg hpad, regEnds_reg] at he
          simp only [List.mem_append, List.mem_singleton] at he
          rcases he with he | rfl
          · have := hinv e he
            omega
          · omega

/-- Either a layout run keeps the register ends and the cursor unchanged,
or the final cursor is one of the register ends. -/
theorem buildFrom_ends_attained (d : Defaults) :
    ∀ (regs : List ExpandedRegister) (st final : LayoutState),
    buildFrom d st regs = .ok final →
    (regEnds final.fields = regEnds st.fields ∧ final.offset = st.offset) ∨
      final.offset ∈ regEnds final.fields := by
  intro regs
  induction regs with
  | nil =>
    intro st final h
    cases Except.ok.inj h
    exact Or.inl ⟨rfl, rfl⟩
  | cons r rest ih =>
    intro st final h
    simp only [buildFrom] at h
    cases hstep : layoutStep d st r with
    | error e => rw [hstep] at h; exact absurd h (by simp [bind, Except.bind])
    | ok st1 =>
      rw [hstep] at h
      simp only [bind, Except.bind] at h
      rcases layoutStep_cases d st r st1 hstep with ⟨_, rfl⟩ | ⟨hle, sz, _, rfl⟩
      · exact ih { st with warnings := st.warnings ++ [(r.name, r.offset)] } final h
      · rcases ih _ final h with ⟨heq, hoff⟩ | hmem
        · right
          rw [heq, hoff]
          dsimp only
          rw [regEnds_append, regEnds_reg]
          simp
        · exact Or.inr hmem

/-- Every member is at most the list maximum. -/
theorem le_maxNat {l : List Nat} {x : Nat} (h : x ∈ l) : x ≤ maxNat l := by
  induction l with
  | nil => cases h
  | cons y ys ih =>
    rcases List.mem_cons.mp h with rfl | h
    · exact le_max_left _ _
    · exact le_trans (ih h) (le_max_right _ _)

/-- A bound on all members bounds the list maximum. -/
theorem maxNat_le {l : List Nat} {c : Nat} (h : ∀ x ∈ l, x ≤ c) : maxNat l ≤ c := by
  induction l with
  | nil => exact Nat.zero_le c
  | cons y ys ih =>
    exact max_le (h y (List.mem_cons_self y ys)) (ih (fun x hx => h x (List.mem_cons_of_mem y hx)))

/-- C8: for every peripheral whose layout builds successfully, the sum of
the byte sizes of all emitted layout elements (register fields plus
inserted padding, overlapping registers having been dropped) equals the
final cursor and — when at least one register is retained — equals the
highest offset-plus-byte-size among the retained registers (each register's
byte size being its resolved bit size divided by 8); with no retained
register the layout is empty-sized. -/
theorem c8_layout_sizes_sum_to_highest_end (p : Peripheral) (d : Defaults)
    (final : LayoutState) (h : gen_peripheral_layout p d = .ok final) :
    sumSizes final.fields = final.offset ∧
    (regEnds final.fields ≠ [] → sumSizes final.fields = maxNat (regEnds final.fields)) ∧
    (regEnds final.fields = [] → sumSizes final.fields = 0) := by
  have hrun : buildFrom d initLayout (expand ((p.registers).getD [])) = .ok final := by
    unfold gen_peripheral_layout at h
    cases hder : p.derived_from with
    | some dd => rw [hder] at h; exact absurd h (by simp)
    | none =>
      rw [hder] at h
      simp only [Option.isSome_none, Bool.false_eq_true, if_false] at h
      cases hreg : p.registers with
      | none => rw [hreg] at h; exact absurd h (by simp)
      | some regs => rw [hreg] at h; simpa [buildLayout] using h
  have hsum2 : sumSizes final.fields = final.offset := by
    have h0 := buildFrom_sum d _ _ _ hrun
    simp only [initLayout] at h0
    simpa [sumSizes] using h0
  have hle := buildFrom_ends_le d _ _ _ hrun (by simp [initLayout, regEnds])
  have hat := buildFrom_ends_attained d _ _ _ hrun
  refine ⟨hsum2, ?_, ?_⟩
  · intro hne
    rcases hat with ⟨heq, _⟩ | hmem
    · rw [heq] at hne
      simp [initLayout, regEnds] at hne
    · exact hsum2.trans (le_antisymm (le_maxNat hmem) (maxNat_le hle))
  · intro hnil
    rcases hat with ⟨_, hoff⟩ | hmem
    · rw [hsum2, hoff]; rfl
    · rw [hnil] at hmem; cases hmem

/-- C8 witness: the theorem applied to a peripheral with a 32-bit register
at offset 0 and a 16-bit register at offset 8 (4 bytes of padding in
between): 4 + 4 + 2 sums to the highest end 8 + 2 = 10. -/
theorem c8_witness :
    sumSizes [LayoutField.register "r1" 0 4 "d1", .padding 0 4, .register "r2" 8 2 "d2"] = 10 ∧
    sumSizes [LayoutField.register "r1" 0 4 "d1", .padding 0 4, .register "r2" 8 2 "d2"] =
      maxNat (regEnds [LayoutField.register "r1" 0 4 "d1", .padding 0 4,
        .register "r2" 8 2 "d2"]) := by
  have h := c8_layout_sizes_sum_to_highest_end
    ⟨"P", none, none, some
      [.single ⟨"R1", "d1", 0, some 32, none, none, none⟩,
       .single ⟨"R2", "d2", 8, some 16, none, none, none⟩]⟩ ⟨none, none⟩
    ⟨10, 1, [.register "r1" 0 4 "d1", .padding 0 4, .register "r2" 8 2 "d2"], []⟩ rfl
  exact ⟨h.1, h.2.1 (by decide)⟩

/-! ## Claim C9: safety of the raw-bits setter -/

/-- The width classifier succeeds on widths 1..=32. -/
theorem to_ty_ok (w : Nat) (h1 : 1 ≤ w) (h2 : w ≤ 32) : ∃ wt, to_ty w = .ok wt := by
  unfold to_ty
  split_ifs
  · exact ⟨8, rfl⟩
  · exact ⟨16, rfl⟩
  · exact ⟨32, rfl⟩
  · omega

/-- When every entry of the set carries a value, the per-entry resolution
succeeds, preserves the entry count, and keeps the entries themselves. -/
theorem mapM_resolveValues (values : List EnumeratedValue)
    (h : ∀ ev ∈ values, ev.value.isSome) :
    ∃ entries : List (EnumeratedValue × Nat),
      values.mapM (fun ev =>
        match ev.value with
        | some value => pure (ev, value)
        | none =>
          (Except.error "no value node in enumeratedValue" :
            Except String (EnumeratedValue × Nat))) = .ok entries ∧
      entries.length = values.length ∧
      entries.map Prod.fst = values := by
  induction values with
  | nil => exact ⟨[], by rfl, rfl, rfl⟩
  | cons v vs ih =>
    obtain ⟨entries, hmap, hlen, hfst⟩ := ih (fun ev hev => h ev (List.mem_cons_of_mem v hev))
    obtain ⟨val, hval⟩ := Option.isSome_iff_exists.mp (h v (List.mem_cons_self v vs))
    refine ⟨(v, val) :: entries, ?_, by simp [hlen], by simp [hfst]⟩
    rw [List.mapM_cons, hval]
    simp only [bind, Except.bind, pure, Except.pure]
    have hmap2 : List.mapM (fun ev =>
        match ev.value with
        | some value => Except.ok (ev, value)
        | none =>
          (Except.error "no value node in enumeratedValue" :
            Except String (EnumeratedValue × Nat))) vs = Except.ok entries := hmap
    rw [hmap2]

/-- The raw-bits setter writes the masked value into the field bits and
preserves every bit outside the field. -/
theorem testBit_wBitsApply (rw off w v bits : Nat) (hw : off + w ≤ rw)
    (hbits : bits < 2 ^ rw) (k : Nat) :
    Nat.testBit (wBitsApply rw off w v bits) k =
      if off ≤ k ∧ k < off + w then Nat.testBit v (k - off) else Nat.testBit bits k := by
  have hmul : (2 ^ w - 1) * 2 ^ off < 2 ^ rw := by
    calc (2 ^ w - 1) * 2 ^ off < 2 ^ w * 2 ^ off := by
          have hp : 0 < (2 : Nat) ^ off := Nat.pos_pow_of_pos off (by norm_num)
          have hq : 0 < (2 : Nat) ^ w := Nat.pos_pow_of_pos w (by norm_num)
          exact (Nat.mul_lt_mul_right hp).mpr (by omega)
      _ = 2 ^ (w + off) := by rw [← pow_add]
      _ ≤ 2 ^ rw := Nat.pow_le_pow_right (by norm_num) (by omega)
  have hmask : (2 ^ w - 1) <<< off < 2 ^ rw := by
    rw [Nat.shiftLeft_eq]; exact hmul
  have hval : (v &&& (2 ^ w - 1)) <<< off < 2 ^ rw := by
    rw [Nat.shiftLeft_eq]
    exact lt_of_le_of_lt (Nat.mul_le_mul_right _ Nat.and_le_right) hmul
  simp only [wBitsApply, trunc, Nat.mod_eq_of_lt hmask, Nat.mod_eq_of_lt hval,
    Nat.testBit_or, Nat.testBit_and, Nat.testBit_xor, Nat.testBit_two_pow_sub_one,
    Nat.testBit_shiftLeft, ge_iff_le]
  by_cases h1 : off ≤ k
  · by_cases h2 : k < off + w
    · have hk : k < rw := by omega
      have hkw : k - off < w := by omega
      simp [h1, h2, hk, hkw]
    · by_cases hk : k < rw
      · have hkw : ¬ k - off < w := by omega
        simp [h1, h2, hk, hkw]
      · have hkw : ¬ k - off < w := by omega
        simp [h1, h2, hk, hkw, testBit_high_of_lt hbits (le_of_not_lt hk)]
  · have hk : k < rw := by omega
    simp [h1, hk]

/-- C9 counterexample: a width-1 set declaring two entries that both carry
value 0 has as many entries as there are codes, so the raw-bits setter is
emitted safe (unqualified), yet code 1 has no named variant — the safety
condition the code implements is an entry count, not code coverage. -/
theorem c9_counterexample :
    genFieldW "Ctrl" [c9field] [] [] c9field =
      .ok ([.proxyDecl "_CtrlWSel", .proxyImpl "_CtrlWSel" [("a", 0), ("b", 0)],
            .enumDecl "CtrlWV" [("A", 0), ("B", 0)]],
        [.proxyAccessor "sel" "_CtrlWSel", .bitsSetter "sel_bits" true 0 1,
         .enumSetter "sel_enum" "CtrlWV" 0 1], []) ∧
    (c9evs.values.all fun ev => ev.value ≠ some 1) = true := by
  exact ⟨rfl, rfl⟩

/-- C9 as amended: for every field with a resolved enumerated write set,
the generated raw-bits setter (which writes the masked value into the
field's bits and preserves all other bits) is exposed as a safe,
unqualified operation if and only if **the number of declared value
entries** equals two to the field width — which coincides with full code
coverage only when the declared values are pairwise distinct and in
range. -/
theorem c9_bits_setter_safe_iff_entry_count
    (rname : String) (fields : List Field) (all_registers : List Register)
    (aliases : List String) (field : Field) (evs : EnumeratedValues)
    (derived : Bool) (base : Option String)
    (h1 : ¬ lowerString field.name = "reserved")
    (h2 : ¬ field.access = some Access.readOnly)
    (h3 : wSelectEvs field fields all_registers = .ok (some (evs, derived, base)))
    (h4 : ∀ ev ∈ evs.values, ev.value.isSome)
    (h5 : 1 ≤ field.bit_range.width) (h6 : field.bit_range.width ≤ 32) :
    (∃ items implItems aliases2,
      genFieldW rname fields all_registers aliases field = .ok (items, implItems, aliases2) ∧
      WImplItem.bitsSetter (to_sanitized_snake_case field.name ++ "_bits")
        (decide (evs.values.length = 2 ^ field.bit_range.width))
        (field.bit_range.offset % 256) field.bit_range.width ∈ implItems) ∧
    (∀ rw off w v bits k, off + w ≤ rw → bits < 2 ^ rw →
      Nat.testBit (wBitsApply rw off w v bits) k =
        if off ≤ k ∧ k < off + w then Nat.testBit v (k - off) else Nat.testBit bits k) := by
  obtain ⟨wt, hwt⟩ := to_ty_ok field.bit_range.width h5 h6
  obtain ⟨entries, hmap, hlen, hfst⟩ := mapM_resolveValues evs.values h4
  constructor
  · have heq : genFieldW rname fields all_registers aliases field =
        .ok ([WItem.proxyDecl ("_" ++ rname ++ "W" ++ to_sanitized_pascal_case field.name),
              WItem.proxyImpl ("_" ++ rname ++ "W" ++ to_sanitized_pascal_case field.name)
                (entries.map (fun e => (to_sanitized_snake_case e.1.name, e.2)))] ++
            (if ¬ derived then
              [WItem.enumDecl
                (rname ++ "W" ++ ((evs.name.map to_sanitized_pascal_case).getD
                  (to_sanitized_pascal_case field.name)))
                (entries.map (fun e => (to_sanitized_pascal_case e.1.name, e.2)))]
             else []) ++
            (match base with
             | some b =>
               if (rname ++ "W" ++ ((evs.name.map to_sanitized_pascal_case).getD
                    (to_sanitized_pascal_case field.name))) ∈ aliases then []
               else [WItem.aliasDecl
                 (rname ++ "W" ++ ((evs.name.map to_sanitized_pascal_case).getD
                   (to_sanitized_pascal_case field.name)))
                 (to_sanitized_pascal_case b ++ "W" ++
                   ((evs.name.map to_sanitized_pascal_case).getD
                     (to_sanitized_pascal_case field.name)))]
             | none => []),
          (match fieldDoc field with
           | some comment => [WImplItem.doc comment]
           | none => []) ++
            [WImplItem.proxyAccessor (to_sanitized_snake_case field.name)
              ("_" ++ rname ++ "W" ++ to_sanitized_pascal_case field.name),
             WImplItem.bitsSetter (to_sanitized_snake_case field.name ++ "_bits")
               (decide ((entries.map (fun e => (to_sanitized_pascal_case e.1.name, e.2))).length =
                 2 ^ field.bit_range.width))
               (field.bit_range.offset % 256) field.bit_range.width,
             WImplItem.enumSetter (to_sanitized_snake_case field.name ++ "_enum")
               (rname ++ "W" ++ ((evs.name.map to_sanitized_pascal_case).getD
                 (to_sanitized_pascal_case field.name)))
               (field.bit_range.offset % 256) field.bit_range.width],
          (match base with
           | some _ =>
             if (rname ++ "W" ++ ((evs.name.map to_sanitized_pascal_case).getD
                  (to_sanitized_pascal_case field.name))) ∈ aliases then aliases
             else aliases ++ [rname ++ "W" ++ ((evs.name.map to_sanitized_pascal_case).getD
               (to_sanitized_pascal_case field.name))]
           | none => aliases)) := by
      unfold genFieldW
      rw [if_neg h1, if_neg h2]
      dsimp only
      simp only [hwt, h3, bind, Except.bind]
      rw [hmap]
      cases base <;> rfl
    refine ⟨_, _, _, heq, ?_⟩
    rw [List.length_map, hlen]
    simp
  · intro rw off w v bits k hw hbits
    exact testBit_wBitsApply rw off w v bits hw hbits k

/-- C9 witness: the amended theorem applied to the duplicate-value fixture
(entry count 2 equals two to the width 1, so the setter is safe there) and
to a concrete setter application preserving an out-of-field bit. -/
theorem c9_witness :
    (∃ items implItems aliases2,
      genFieldW "Ctrl" [c9field] [] [] c9field = .ok (items, implItems, aliases2) ∧
      WImplItem.bitsSetter "sel_bits" (decide (c9evs.values.length = 2 ^ 1)) 0 1 ∈ implItems) ∧
    Nat.testBit (wBitsApply 32 4 4 5 0xFF) 2 =
      if 4 ≤ 2 ∧ 2 < 4 + 4 then Nat.testBit 5 (2 - 4) else Nat.testBit 0xFF 2 := by
  obtain ⟨hA, hB⟩ := c9_bits_setter_safe_iff_entry_count "Ctrl" [c9field] [] [] c9field c9evs
    false none (by decide) (by decide) rfl (by decide) (by decide) (by decide)
  exact ⟨hA, hB 32 4 4 5 0xFF 2 (by decide) (by decide)⟩

/-! ## Claim C5: totality and self-inversion of enumerated read decoding -/

/-- The fuel-based binary rendering agrees with the base-2 digit expansion
read most-significant first. -/
theorem binCharsGo_eq_digits : ∀ (fuel n : Nat), n ≤ fuel →
    binCharsGo fuel n =
      ((Nat.digits 2 n).reverse).map (fun d => if d = 1 then '1' else '0') := by
  intro fuel
  induction fuel with
  | zero =>
    intro n hn
    obtain rfl : n = 0 := by omega
    simp [binCharsGo]
  | succ fuel ih =>
    intro n hn
    by_cases h0 : n = 0
    · subst h0
      simp [binCharsGo]
    · have hdiv : n / 2 ≤ fuel := by
        have := Nat.div_lt_self (Nat.pos_of_ne_zero h0) (by norm_num : (1 : Nat) < 2)
        omega
      simp only [binCharsGo, h0, if_false]
      rw [ih (n / 2) hdiv,
        Nat.digits_def' (by norm_num : (1 : Nat) < 2) (Nat.pos_of_ne_zero h0)]
      simp [List.map_append]

/-- The digit-to-character map is injective on binary digits. -/
theorem dc_map_inj : ∀ (l1 l2 : List Nat), (∀ d ∈ l1, d < 2) → (∀ d ∈ l2, d < 2) →
    l1.map (fun d => if d = 1 then '1' else '0') =
      l2.map (fun d => if d = 1 then '1' else '0') →
    l1 = l2 := by
  intro l1
  induction l1 with
  | nil =>
    intro l2 _ _ h
    cases l2 with
    | nil => rfl
    | cons d2 t2 => simp at h
  | cons d1 t1 ih =>
    intro l2 h1 h2 h
    cases l2 with
    | nil => simp at h
    | cons d2 t2 =>
      simp only [List.map_cons, List.cons.injEq] at h
      obtain ⟨hd, ht⟩ := h
      have hd1 : d1 < 2 := h1 d1 (by simp)
      have hd2 : d2 < 2 := h2 d2 (by simp)
      have hde : d1 = d2 := by
        by_cases e1 : d1 = 1 <;> by_cases e2 : d2 = 1
        · omega
        · rw [if_pos e1, if_neg e2] at hd; exact absurd hd (by decide)
        · rw [if_neg e1, if_pos e2] at hd; exact absurd hd (by decide)
        · omega
      rw [hde, ih t2 (fun d hd3 => h1 d (by simp [hd3])) (fun d hd3 => h2 d (by simp [hd3])) ht]

/-- A nonzero number never renders as "0". -/
theorem binString_ne_zero_string (p : Nat) (hp : p ≠ 0) : binString p ≠ "0" := by
  unfold binString
  rw [if_neg hp]
  intro hcontra
  have hdata : binCharsGo p p = ['0'] := congrArg String.data hcontra
  rw [binCharsGo_eq_digits p p le_rfl] at hdata
  cases hrev : (Nat.digits 2 p).reverse with
  | nil => rw [hrev] at hdata; simp at hdata
  | cons d rest =>
    rw [hrev] at hdata
    simp only [List.map_cons, List.cons.injEq] at hdata
    obtain ⟨hd0, _⟩ := hdata
    have hgl : (Nat.digits 2 p).getLast? = some d := by
      rw [← List.head?_reverse, hrev]; rfl
    have hmem : d ∈ Nat.digits 2 p := List.mem_of_mem_getLast? hgl
    have hlt : d < 2 := Nat.digits_lt_base (by norm_num) hmem
    have hnil : Nat.digits 2 p ≠ [] := by
      intro hnil0
      rw [hnil0] at hgl
      simp at hgl
    rw [List.getLast?_eq_getLast _ hnil] at hgl
    have hd : (Nat.digits 2 p).getLast hnil = d := Option.some.inj hgl
    have hne : d ≠ 0 := by
      rw [← hd]
      exact Nat.getLast_digit_ne_zero 2 hp
    have hd1 : d = 1 := by omega
    rw [hd1] at hd0
    exact absurd hd0 (by decide)

/-- The binary rendering is injective: distinct codes get distinct
synthesized reserved names. -/
theorem binString_injective (m n : Nat) (h : binString m = binString n) : m = n := by
  by_cases hm : m = 0 <;> by_cases hn : n = 0
  · omega
  · subst hm
    exact absurd h.symm (binString_ne_zero_string n hn)
  · subst hn
    exact absurd h (binString_ne_zero_string m hm)
  · unfold binString at h
    rw [if_neg hm, if_neg hn, binCharsGo_eq_digits m m le_rfl,
      binCharsGo_eq_digits n n le_rfl] at h
    have hdata := congrArg String.data h
    have hrev := dc_map_inj _ _
      (fun d hd => Nat.digits_lt_base (by norm_num) (List.mem_reverse.mp hd))
      (fun d hd => Nat.digits_lt_base (by norm_num) (List.mem_reverse.mp hd)) hdata
    have hdig : Nat.digits 2 m = Nat.digits 2 n := List.reverse_injective hrev
    calc m = Nat.ofDigits 2 (Nat.digits 2 m) := (Nat.ofDigits_digits 2 m).symm
      _ = Nat.ofDigits 2 (Nat.digits 2 n) := by rw [hdig]
      _ = n := Nat.ofDigits_digits 2 n

/-- Every generated read variant carries its own code. -/
theorem mkRVariantAt_value (evs : EnumeratedValues) (i : Nat) :
    (mkRVariantAt evs i).value = i := by
  unfold mkRVariantAt
  cases h : evs.values.find? (fun ev => ev.value = some i) <;> simp [h]

/-- In a list whose j-th element carries value k + j, the first element
carrying value c sits at position c - k. -/
theorem find_by_value : ∀ (l : List RVariant) (k c : Nat),
    (∀ j v, l[j]? = some v → v.value = k + j) →
    k ≤ c → c < k + l.length →
    l.find? (fun v => v.value = c) = l[c - k]? := by
  intro l
  induction l with
  | nil =>
    intro k c _ hc1 hc2
    simp at hc2
    omega
  | cons x xs ih =>
    intro k c hval hc1 hc2
    have hx : x.value = k := by
      have := hval 0 x (by rw [List.getElem?_cons_zero])
      omega
    by_cases hck : c = k
    · subst hck
      rw [List.find?_cons_of_pos _ (by simp [hx])]
      rw [Nat.sub_self, List.getElem?_cons_zero]
    · rw [List.find?_cons_of_neg _ (by simp [hx]; omega)]
      have hstep : ∀ j v, xs[j]? = some v → v.value = (k + 1) + j := by
        intro j v hj
        have := hval (j + 1) v (by rw [List.getElem?_cons_succ]; exact hj)
        omega
      rw [show c - k = c - (k + 1) + 1 by omega, List.getElem?_cons_succ]
      exact ih (k + 1) c hstep (by omega) (by simp at hc2 ⊢; omega)

/-- Length of the generated variant list. -/
theorem mkRVariants_length (evs : EnumeratedValues) (width : Nat) :
    (mkRVariants evs width).length = 2 ^ width := by
  simp [mkRVariants]

/-- Decoding is total over the code range: the variant for a code is found
at that code's position. -/
theorem rDecode_mkRVariants (evs : EnumeratedValues) (width c : Nat) (hc : c < 2 ^ width) :
    rDecode (mkRVariants evs width) c = some (mkRVariantAt evs c) := by
  unfold rDecode
  have hval : ∀ j v, (mkRVariants evs width)[j]? = some v → v.value = 0 + j := by
    intro j v hj
    rw [mkRVariants, List.getElem?_map] at hj
    by_cases hjlt : j < 2 ^ width
    · rw [List.getElem?_range hjlt] at hj
      rw [show Option.map (mkRVariantAt evs) (some j) = some (mkRVariantAt evs j) from rfl] at hj
      rw [← Option.some.inj hj, mkRVariantAt_value]
      omega
    · rw [List.getElem?_eq_none (by simpa using le_of_not_lt hjlt)] at hj
      simp at hj
  rw [find_by_value (mkRVariants evs width) 0 c hval (Nat.zero_le c)
    (by rw [mkRVariants_length]; omega)]
  rw [Nat.sub_zero, mkRVariants, List.getElem?_map, List.getElem?_range hc]
  rfl

/-- C5: the generated read-view decoding is total over the code range (one
variant per code, a declared code getting the sanitized name of its first
declared entry and an undeclared code a reserved variant named by its
binary rendering), distinct codes get distinct reserved names, decoding
inverts encoding on every variant of the generated type, and the accessor
always yields a code inside the range. -/
theorem c5_enumerated_read_decoding_total (evs : EnumeratedValues) (width : Nat) :
    ((mkRVariants evs width).map (fun v => v.value) = List.range (2 ^ width)) ∧
    (∀ c, c < 2 ^ width → rDecode (mkRVariants evs width) c = some (mkRVariantAt evs c)) ∧
    (∀ c ev, evs.values.find? (fun e => e.value = some c) = some ev →
      mkRVariantAt evs c = ⟨to_sanitized_pascal_case ev.name, c, false⟩) ∧
    (∀ c, evs.values.find? (fun e => e.value = some c) = none →
      mkRVariantAt evs c = ⟨"_Reserved" ++ binString c, c, true⟩) ∧
    (∀ c c' : Nat, c ≠ c' →
      ("_Reserved" ++ binString c : String) ≠ "_Reserved" ++ binString c') ∧
    (∀ v ∈ mkRVariants evs width, rDecode (mkRVariants evs width) (rEncode v) = some v) ∧
    (∀ wt offset bits, rIntEval wt offset width bits < 2 ^ width) := by
  refine ⟨?_, fun c hc => rDecode_mkRVariants evs width c hc, ?_, ?_, ?_, ?_, ?_⟩
  · calc (mkRVariants evs width).map (fun v => v.value)
        = (List.range (2 ^ width)).map (fun i => (mkRVariantAt evs i).value) := by
          rw [mkRVariants, List.map_map]; rfl
      _ = (List.range (2 ^ width)).map id :=
          List.map_congr_left (fun i _ => mkRVariantAt_value evs i)
      _ = List.range (2 ^ width) := List.map_id _
  · intro c ev hfind
    simp [mkRVariantAt, hfind]
  · intro c hfind
    simp [mkRVariantAt, hfind]
  · intro c c' hne heq
    have hdata := congrArg String.data heq
    rw [String.data_append, String.data_append] at hdata
    exact hne (binString_injective c c' (String.ext (List.append_cancel_left hdata)))
  · intro v hv
    rw [mkRVariants] at hv
    obtain ⟨c, hc, rfl⟩ := List.mem_map.mp hv
    have hcr := List.mem_range.mp hc
    rw [rEncode, mkRVariantAt_value]
    exact rDecode_mkRVariants evs width c hcr
  · intro wt offset bits
    have hpos : 0 < 2 ^ width := Nat.pos_pow_of_pos width (by norm_num)
    exact lt_of_le_of_lt Nat.and_le_right (by omega)

/-- C5 witness: the theorem applied to a width-1 set declaring only code 0:
code 0 decodes to the named variant, code 1 to the hidden reserved variant,
the reserved names for codes 0 and 1 differ, and decoding inverts encoding
on the named variant. -/
theorem c5_witness :
    rDecode (mkRVariants c5evs 1) 0 = some (mkRVariantAt c5evs 0) ∧
    mkRVariantAt c5evs 0 = ⟨"Off", 0, false⟩ ∧
    mkRVariantAt c5evs 1 = ⟨"_Reserved1", 1, true⟩ ∧
    ("_Reserved" ++ binString 0 : String) ≠ "_Reserved" ++ binString 1 ∧
    rDecode (mkRVariants c5evs 1) (rEncode ⟨"Off", 0, false⟩) = some ⟨"Off", 0, false⟩ ∧
    rIntEval 8 0 1 255 < 2 ^ 1 := by
  obtain ⟨h1, h2, h3, h4, h5, h6, h7⟩ := c5_enumerated_read_decoding_total c5evs 1
  refine ⟨h2 0 (by decide), ?_, ?_, h5 0 1 (by decide), ?_, h7 8 0 255⟩
  · exact h3 0 ⟨"OFF", none, some 0⟩ (by rfl)
  · exact h4 1 (by rfl)
  · exact h6 ⟨"Off", 0, false⟩ (by decide)

/-! ## Claim C7: array expansion, shared type handles, stable sorting -/

/-- Inserting permutes to consing. -/
theorem insertByOffset_perm (x : ExpandedRegister) (l : List ExpandedRegister) :
    (insertByOffset x l).Perm (x :: l) := by
  induction l with
  | nil => exact List.Perm.refl _
  | cons y ys ih =>
    unfold insertByOffset
    by_cases h : x.offset ≤ y.offset
    · rw [if_pos h]
    · rw [if_neg h]
      exact (List.Perm.cons y ih).trans (List.Perm.swap x y ys)

/-- Membership in an insertion. -/
theorem mem_insertByOffset {z x : ExpandedRegister} {l : List ExpandedRegister} :
    z ∈ insertByOffset x l ↔ z = x ∨ z ∈ l := by
  rw [List.Perm.mem_iff (insertByOffset_perm x l), List.mem_cons]

/-- Insertion preserves sortedness by offset. -/
theorem insertByOffset_pairwise (x : ExpandedRegister) (l : List ExpandedRegister)
    (h : List.Pairwise (fun a b => a.offset ≤ b.offset) l) :
    List.Pairwise (fun a b => a.offset ≤ b.offset) (insertByOffset x l) := by
  induction l with
  | nil => simp [insertByOffset]
  | cons y ys ih =>
    rcases List.pairwise_cons.mp h with ⟨hy, hys⟩
    unfold insertByOffset
    by_cases hxy : x.offset ≤ y.offset
    · rw [if_pos hxy]
      refine List.pairwise_cons.mpr ⟨?_, h⟩
      intro z hz
      rcases List.mem_cons.mp hz with rfl | hz
      · exact hxy
      · exact le_trans hxy (hy z hz)
    · rw [if_neg hxy]
      refine List.pairwise_cons.mpr ⟨?_, ih hys⟩
      intro z hz
      rcases mem_insertByOffset.mp hz with rfl | hz
      · omega
      · exact hy z hz

/-- The stable sort is a permutation: every expanded instance is present. -/
theorem sortByOffset_perm (l : List ExpandedRegister) : (sortByOffset l).Perm l := by
  induction l with
  | nil => exact List.Perm.refl _
  | cons x xs ih =>
    exact (insertByOffset_perm x (sortByOffset xs)).trans (List.Perm.cons x ih)

/-- The sort output is ascending by offset. -/
theorem sortByOffset_pairwise (l : List ExpandedRegister) :
    List.Pairwise (fun a b => a.offset ≤ b.offset) (sortByOffset l) := by
  induction l with
  | nil => exact List.Pairwise.nil
  | cons x xs ih => exact insertByOffset_pairwise x (sortByOffset xs) ih

/-- Filtering one offset class through an insertion. -/
theorem insertByOffset_filter (x : ExpandedRegister) (l : List ExpandedRegister) (k : Nat) :
    (insertByOffset x l).filter (fun e => e.offset = k) =
      if x.offset = k then x :: l.filter (fun e => e.offset = k)
      else l.filter (fun e => e.offset = k) := by
  induction l with
  | nil =>
    by_cases hxk : x.offset = k <;> simp [insertByOffset, List.filter, hxk]
  | cons y ys ih =>
    unfold insertByOffset
    by_cases hxy : x.offset ≤ y.offset
    · rw [if_pos hxy]
      by_cases hxk : x.offset = k <;> simp [List.filter_cons, hxk]
    · rw [if_neg hxy]
      by_cases hyk : y.offset = k
      · have hxk : ¬ x.offset = k := by omega
        simp [List.filter_cons, hyk, hxk, ih]
      · by_cases hxk : x.offset = k <;> simp [List.filter_cons, hyk, hxk, ih]

/-- Stability: the sort preserves the relative order of equal-offset
elements (each offset class filters identically before and after). -/
theorem sortByOffset_filter (l : List ExpandedRegister) (k : Nat) :
    (sortByOffset l).filter (fun e => e.offset = k) = l.filter (fun e => e.offset = k) := by
  induction l with
  | nil => rfl
  | cons x xs ih =>
    show (insertByOffset x (sortByOffset xs)).filter _ = _
    rw [insertByOffset_filter]
    by_cases hxk : x.offset = k <;> simp [List.filter_cons, hxk, ih]

/-- C7: expanding an array register yields one instance per index label
(explicit labels, else the decimal sequence), the instance at positional
index i sitting at offset base + i * increment under the name obtained by
substituting the label into the repetition placeholder and sanitizing, all
instances sharing one type handle (the sanitized name with the placeholder
removed); and the merged expanded list is sorted ascending by offset,
stably (a permutation of the unsorted expansion preserving each offset
class's order). -/
theorem c7_array_expansion_and_stable_sort :
    (∀ (info : RegisterInfo) (ai : ArrayInfo) (labels : List String),
      labels = (match ai.dim_index with
        | some v => v
        | none => (List.range ai.dim).map (fun i => toString i)) →
      (expandUnsorted [Register.array info ai]).length = labels.length ∧
      (∀ i (hi : i < labels.length),
        (expandUnsorted [Register.array info ai])[i]? = some
          { info := info
            name := to_sanitized_snake_case
              (if containsSubstr info.name "[%s]" then
                stringReplace info.name "[%s]" (labels.get ⟨i, hi⟩)
              else stringReplace info.name "%s" (labels.get ⟨i, hi⟩))
            offset := info.address_offset + i * ai.dim_increment
            ty := .inr (to_sanitized_pascal_case
              (if containsSubstr info.name "[%s]" then stringReplace info.name "[%s]" ""
               else stringReplace info.name "%s" "")) }) ∧
      (∃ T, ∀ i (hi : i < labels.length) e,
        (expandUnsorted [Register.array info ai])[i]? = some e → e.ty = Sum.inr T)) ∧
    (∀ regs : List Register,
      List.Pairwise (fun a b => a.offset ≤ b.offset) (expand regs)) ∧
    (∀ regs : List Register, (expand regs).Perm (expandUnsorted regs)) ∧
    (∀ (regs : List Register) (k : Nat),
      (expand regs).filter (fun e => e.offset = k) =
        (expandUnsorted regs).filter (fun e => e.offset = k)) := by
  refine ⟨?_, fun regs => sortByOffset_pairwise _, fun regs => sortByOffset_perm _,
    fun regs k => sortByOffset_filter _ k⟩
  intro info ai labels hlab
  have hexp : expandUnsorted [Register.array info ai] =
      (List.zip labels (List.range labels.length)).map (fun p =>
        { info := info
          name := to_sanitized_snake_case
            (if containsSubstr info.name "[%s]" then stringReplace info.name "[%s]" p.1
             else stringReplace info.name "%s" p.1)
          offset := info.address_offset + p.2 * ai.dim_increment
          ty := .inr (to_sanitized_pascal_case
            (if containsSubstr info.name "[%s]" then stringReplace info.name "[%s]" ""
             else stringReplace info.name "%s" "")) }) := by
    subst hlab
    simp only [expandUnsorted, List.flatMap_cons, List.flatMap_nil, List.append_nil]
  have hlen : (expandUnsorted [Register.array info ai]).length = labels.length := by
    rw [hexp]
    simp [List.length_zip]
  have hget : ∀ i (hi : i < labels.length),
      (expandUnsorted [Register.array info ai])[i]? = some
        { info := info
          name := to_sanitized_snake_case
            (if containsSubstr info.name "[%s]" then
              stringReplace info.name "[%s]" (labels.get ⟨i, hi⟩)
            else stringReplace info.name "%s" (labels.get ⟨i, hi⟩))
          offset := info.address_offset + i * ai.dim_increment
          ty := .inr (to_sanitized_pascal_case
            (if containsSubstr info.name "[%s]" then stringReplace info.name "[%s]" ""
             else stringReplace info.name "%s" "")) } := by
    intro i hi
    have hzlen : i < (List.zip labels (List.range labels.length)).length := by
      simp [List.length_zip]
      omega
    rw [hexp, List.getElem?_eq_getElem (by simpa using hzlen)]
    congr 1
    rw [List.getElem_map, List.getElem_zip]
    simp [List.getElem_range]
  refine ⟨hlen, hget, ⟨to_sanitized_pascal_case
    (if containsSubstr info.name "[%s]" then stringReplace info.name "[%s]" ""
     else stringReplace info.name "%s" ""), ?_⟩⟩
  intro i hi e he
  rw [hget i hi] at he
  rw [← Option.some.inj he]

/-- C7 witness: the theorem applied to count 4, increment 4, base 0x10,
name "CH[%s]", no explicit labels: four instances ch0..ch3 at 0x10, 0x14,
0x18, 0x1c sharing the type handle "Ch", the sorted expansion being exactly
that ascending list. -/
theorem c7_witness :
    (expandUnsorted [Register.array ⟨"CH[%s]", "chan", 16, some 32, none, none, none⟩
        ⟨4, 4, none⟩])[2]? =
      some ⟨⟨"CH[%s]", "chan", 16, some 32, none, none, none⟩, "ch2", 24, .inr "Ch"⟩ ∧
    List.Pairwise (fun a b => a.offset ≤ b.offset)
      (expand [Register.array ⟨"CH[%s]", "chan", 16, some 32, none, none, none⟩ ⟨4, 4, none⟩]) ∧
    (expand [Register.array ⟨"CH[%s]", "chan", 16, some 32, none, none, none⟩ ⟨4, 4, none⟩]).Perm
      (expandUnsorted [Register.array ⟨"CH[%s]", "chan", 16, some 32, none, none, none⟩
        ⟨4, 4, none⟩]) ∧
    expand [Register.array ⟨"CH[%s]", "chan", 16, some 32, none, none, none⟩ ⟨4, 4, none⟩] =
      [⟨⟨"CH[%s]", "chan", 16, some 32, none, none, none⟩, "ch0", 16, .inr "Ch"⟩,
       ⟨⟨"CH[%s]", "chan", 16, some 32, none, none, none⟩, "ch1", 20, .inr "Ch"⟩,
       ⟨⟨"CH[%s]", "chan", 16, some 32, none, none, none⟩, "ch2", 24, .inr "Ch"⟩,
       ⟨⟨"CH[%s]", "chan", 16, some 32, none, none, none⟩, "ch3", 28, .inr "Ch"⟩] := by
  obtain ⟨hA, hB, hC, _⟩ := c7_array_expansion_and_stable_sort
  refine ⟨?_, hB _, hC _, rfl⟩
  exact (hA ⟨"CH[%s]", "chan", 16, some 32, none, none, none⟩ ⟨4, 4, none⟩
    ["0", "1", "2", "3"] rfl).2.1 2 (by decide)

end Svd2Rust
